import Mathlib

/-!
# Generic byte-record vector (`src/src/vector.c`)

A shallow embedding of the type-erased dynamic array.  The heap block owned by
the vector is a list of bytes, the three counters are natural numbers reduced
modulo `2 ^ 64` wherever the C code computes in `unsigned long long`, and every
call that reaches the allocator takes the allocator's answer as an argument.
An access outside the block is reported as `Outcome.undefined`, and a null
answer of `realloc` to a request for zero bytes, after which the old block may
have been freed, as `Outcome.dangling`.

The header `include/vector.h` is not part of the sources at hand, so the
constants `VECT_INIT_CAPACITY`, `GROWTH_FACTOR` and `N_EXISTS` it defines are
arguments of the functions that use them.  The loop of `vector_index_of` takes a
bound on its number of iterations; `qsort` and `bsearch` are an insertion sort
and a binary search over the stored records.
-/

namespace GenericVector

/-! ## Machine arithmetic -/

/-- Number of values of `unsigned long long`. -/
def ULL : Nat := 2 ^ 64

/-- Largest `long long`. -/
def LLONG_MAX : Nat := 2 ^ 63 - 1

/-- Product in `unsigned long long`. -/
def umul (a b : Nat) : Nat := (a * b) % ULL

/-- Difference in `unsigned long long`. -/
def usub (a b : Nat) : Nat := (a % ULL + ULL - b % ULL) % ULL

/-- Sum in `unsigned long long`. -/
def uadd (a b : Nat) : Nat := (a + b) % ULL

/-- Left shift in `unsigned long long`. -/
def ushl (a k : Nat) : Nat := (a * 2 ^ k) % ULL

/-! ## Data model -/

/-- The record `struct vector`: `data = none` is a null buffer pointer,
`data = some bytes` a heap block holding exactly `bytes`. -/
structure vector where
  size : Nat
  capacity : Nat
  data_size : Nat
  data : Option (List Nat)
deriving DecidableEq, Repr

/-- Result of a call.  `ret a p`: the call returned `a` and the vector pointer
designates the record `p` afterwards (`none` for a null vector pointer).
`undefined`: undefined behaviour.  `dangling a v`: the call returned `a` and
left the fields of the record as in `v`, after `realloc` answered null to a
request for zero bytes; the implementation decides whether it freed the old
block first, and glibc does, so the buffer pointer still stored in the record
may point to freed memory. -/
inductive Outcome (α : Type) where
  | ret : α → Option vector → Outcome α
  | undefined : Outcome α
  | dangling : α → vector → Outcome α
deriving DecidableEq, Repr

/-- Answer of `realloc`.  `block bytes`: a block holding `bytes`, the old block
being gone.  `null`: a null pointer, the old block being as it was.
`nullZero`: a null pointer in answer to a request for zero bytes on an existing
block, where the implementation decides whether the old block was freed first
(glibc frees it). -/
inductive Realloc where
  | block : List Nat → Realloc
  | null : Realloc
  | nullZero : Realloc
deriving DecidableEq, Repr

/-! ## Library calls -/

/-- The call `memcpy(dst + off, src, n)`; `none` when a range leaves its block. -/
def memcpy (dst : List Nat) (off : Nat) (src : List Nat) (n : Nat) : Option (List Nat) :=
  if off + n ≤ dst.length ∧ n ≤ src.length then
    some (dst.take off ++ src.take n ++ dst.drop (off + n))
  else none

/-- The call `memset(dst + off, 0, n)`; `none` when the range leaves the block. -/
def memset (dst : List Nat) (off n : Nat) : Option (List Nat) :=
  if off + n ≤ dst.length then
    some (dst.take off ++ List.replicate n 0 ++ dst.drop (off + n))
  else none

/-- The call `memmove(buf + dstOff, buf + srcOff, n)` inside one block; `none`
when a range leaves the block. -/
def memmove (buf : List Nat) (dstOff srcOff n : Nat) : Option (List Nat) :=
  if dstOff + n ≤ buf.length ∧ srcOff + n ≤ buf.length then
    some (buf.take dstOff ++ (buf.drop srcOff).take n ++ buf.drop (dstOff + n))
  else none

/-- The call `realloc(old, n)`.  The allocator's answer is `r`: `none` is a
null return, which for a request of at least one byte leaves the old block as
it was, and for a request of zero bytes on an existing block may have freed
it; `some junk` is a block of `n` bytes that starts with the old bytes and
continues with the indeterminate bytes `junk`.  A null `old` behaves as an
empty block. -/
def realloc (old : Option (List Nat)) (n : Nat) (r : Option (List Nat)) : Realloc :=
  match r with
  | none => if n = 0 ∧ old.isSome then .nullZero else .null
  | some junk =>
    let o := old.getD []
    .block (o.take n ++ (junk ++ List.replicate n 0).take (n - o.length))

/-- A comparator `int (*)(const void *, const void *)`, reading one element
through each pointer. -/
abbrev Comparator : Type := List Nat → List Nat → Int

/-- The `nmemb` records of `size` bytes each at the start of a block. -/
def records (d : List Nat) (nmemb size : Nat) : List (List Nat) :=
  (List.range nmemb).map fun i => (d.drop (i * size)).take size

/-- The call `qsort(base, nmemb, size, compar)` on a block, as an insertion sort
of its first `nmemb` records (the C standard leaves the order of records that
compare equal open); `none` when the array leaves the block. -/
def qsort (d : List Nat) (nmemb size : Nat) (compar : Comparator) : Option (List Nat) :=
  if nmemb * size ≤ d.length then
    some ((List.insertionSort (fun a b => compar a b ≤ 0) (records d nmemb size)).flatten ++
      d.drop (nmemb * size))
  else none

/-- The loop of `bsearch` over the records with index in `[l, u)`; the first
argument bounds the number of iterations. -/
def bsearch_loop (key d : List Nat) (size : Nat) (compar : Comparator) :
    Nat → Nat → Nat → Option Nat
  | 0, _, _ => none
  | fuel + 1, l, u =>
    if l < u then
      let idx := (l + u) / 2
      let comparison := compar key ((d.drop (idx * size)).take size)
      if comparison < 0 then bsearch_loop key d size compar fuel l idx
      else if comparison > 0 then bsearch_loop key d size compar fuel (idx + 1) u
      else some (idx * size)
    else none

/-- The call `bsearch(key, base, nmemb, size, compar)` as binary search: the
offset of a record that compares equal to the key, or `none` for a null
result.  The interval halves at each step, so `nmemb` iterations are enough. -/
def bsearch (key d : List Nat) (nmemb size : Nat) (compar : Comparator) : Option Nat :=
  bsearch_loop key d size compar nmemb 0 nmemb

/-- Conversion of an `unsigned long long` value to `long long`. -/
def toLongLong (n : Nat) : Int :=
  if n ≤ LLONG_MAX then (n : Int) else (n : Int) - (ULL : Int)

/-- Bytes seen through a pointer `data + off` to one element; `none` when the
buffer is null or the element leaves the block. -/
def view (v : vector) (off : Nat) : Option (List Nat) :=
  match v.data with
  | none => none
  | some d =>
    if off + v.data_size ≤ d.length then some ((d.drop off).take v.data_size) else none

/-! ## The operations of `vector.c` -/

/-- The constructor `vector_init`; `calloc_vector` and `calloc_data` tell whether
the two `calloc` calls return a block. -/
def vector_init (VECT_INIT_CAPACITY data_size : Nat) (calloc_vector calloc_data : Bool) :
    Option vector :=
  if data_size = 0 then none
  else if LLONG_MAX < umul VECT_INIT_CAPACITY data_size then none
  else if !calloc_vector then none
  else if !calloc_data then none
  else some
    { data_size := data_size
      data := some (List.replicate (umul VECT_INIT_CAPACITY data_size) 0)
      capacity := VECT_INIT_CAPACITY
      size := 0 }

/-- The query `vector_size`. -/
def vector_size : Option vector → Nat
  | none => 0
  | some v => v.size

/-- The query `vector_capacity`. -/
def vector_capacity : Option vector → Nat
  | none => 0
  | some v => v.capacity

/-- The query `vector_empty`. -/
def vector_empty : Option vector → Bool
  | none => true
  | some v => v.size == 0

/-- The accessor `vector_at`: the offset of the element inside the buffer, or
`none` for a null result. -/
def vector_at : Option vector → Nat → Option Nat
  | none, _ => none
  | some v, pos =>
    match v.data with
    | none => none
    | some _ => if pos ≥ v.size then none else some (umul pos v.data_size)

/-- The static helper `vector_resize_internal`; `r` is the answer of its
`realloc` call.  The quotient `LLONG_MAX / data_size` with `data_size` zero is a
division by zero, hence undefined. -/
def vector_resize_internal (GROWTH_FACTOR : Nat) (v : vector) (r : Option (List Nat)) :
    Outcome Bool :=
  if LLONG_MAX / 2 ^ GROWTH_FACTOR < v.capacity then .ret false (some v)
  else
    let new_capacity := ushl v.capacity GROWTH_FACTOR
    if v.data_size = 0 then .undefined
    else if LLONG_MAX / v.data_size < umul new_capacity v.data_size then .ret false (some v)
    else
      match realloc v.data (umul new_capacity v.data_size) r with
      | .null => .ret false (some v)
      | .nullZero => .dangling false v
      | .block tmp =>
        match memset tmp (umul v.size v.data_size)
            (usub (umul new_capacity v.data_size) (umul v.size v.data_size)) with
        | none => .undefined
        | some tmp1 => .ret true (some { v with capacity := new_capacity, data := some tmp1 })

/-- The operation `vector_reserve`; `r` is the answer of its `realloc` call. -/
def vector_reserve : Option vector → Nat → Option (List Nat) → Outcome Nat
  | none, _, _ => .ret 0 none
  | some v, size, r =>
    if size > LLONG_MAX then .ret v.capacity (some v)
    else if size ≤ v.capacity then .ret v.capacity (some v)
    else
      match realloc v.data (umul size v.data_size) r with
      | .null => .ret v.capacity (some v)
      | .nullZero => .dangling v.capacity v
      | .block tmp =>
        match memset tmp (umul v.size v.data_size)
            (usub (umul size v.data_size) (umul v.size v.data_size)) with
        | none => .undefined
        | some tmp1 => .ret size (some { v with capacity := size, data := some tmp1 })

/-- The operation `vector_resize`; `r` is the answer of the `realloc` call made by
`vector_reserve`.  The branch for a null vector after `vector_reserve` cannot be
reached and is there to make the match complete.  After a `vector_reserve` that
left the buffer pointer possibly dangling the code goes on as after any other
one: it compares the capacities and returns. -/
def vector_resize : Option vector → Nat → Option (List Nat) → Outcome Nat
  | none, _, _ => .ret 0 none
  | some v, size, r =>
    if size ≥ v.size ∧ size ≤ v.capacity then
      match v.data with
      | none => .undefined
      | some d =>
        match memset d (umul v.size v.data_size)
            (usub (umul size v.data_size) (umul v.size v.data_size)) with
        | none => .undefined
        | some d1 => .ret size (some { v with data := some d1, size := size })
    else if size > v.capacity then
      let prev_capacity := vector_capacity (some v)
      match vector_reserve (some v) size r with
      | .undefined => .undefined
      | .ret _ none => .undefined
      | .ret new_capacity (some v1) =>
        if prev_capacity = new_capacity then .ret v1.size (some v1)
        else .ret size (some { v1 with size := size })
      | .dangling new_capacity v1 =>
        if prev_capacity = new_capacity then .dangling v1.size v1
        else .dangling size { v1 with size := size }
    else .ret size (some { v with size := size })

/-- The operation `vector_push`; `element` is the memory the caller points to,
`r` the answer of the `realloc` call made by `vector_resize_internal`.  A growth
that fails returns `false` at once, also when it left the buffer pointer
possibly dangling; growth never reports success in that case, so that branch
is there to make the match complete. -/
def vector_push (GROWTH_FACTOR : Nat) :
    Option vector → List Nat → Option (List Nat) → Outcome Bool
  | none, _, _ => .ret false none
  | some v, element, r =>
    match v.data with
    | none => .ret false (some v)
    | some _ =>
      let grown : Outcome Bool :=
        if v.size = v.capacity then vector_resize_internal GROWTH_FACTOR v r
        else .ret true (some v)
      match grown with
      | .undefined => .undefined
      | .ret false p => .ret false p
      | .dangling false v1 => .dangling false v1
      | .dangling true _ => .undefined
      | .ret true none => .undefined
      | .ret true (some v1) =>
        match v1.data with
        | none => .undefined
        | some d =>
          match memcpy d (umul v1.size v1.data_size) element v1.data_size with
          | none => .undefined
          | some d1 => .ret true (some { v1 with data := some d1, size := uadd v1.size 1 })

/-- The operation `vector_pop`: the returned pointer is an offset into the
buffer. -/
def vector_pop : Option vector → Outcome (Option Nat)
  | none => .ret none none
  | some v =>
    match v.data with
    | none => .ret none (some v)
    | some _ =>
      let size1 := usub v.size 1
      .ret (some (umul size1 v.data_size)) (some { v with size := size1 })

/-- The operation `vector_remove_at`; `calloc_old` tells whether the block for
the returned copy is obtained.  The result is the copy's bytes. -/
def vector_remove_at (p : Option vector) (pos : Nat) (calloc_old : Bool) :
    Outcome (Option (List Nat)) :=
  match vector_at p pos with
  | none => .ret none p
  | some tmp =>
    match p with
    | none => .ret none p
    | some v =>
      if !calloc_old then .ret none p
      else
        match v.data, view v tmp with
        | some d, some old =>
          let factored_pos := umul pos v.data_size
          match memmove d factored_pos (factored_pos + 1)
              (usub (usub (umul v.size v.data_size) factored_pos) v.data_size) with
          | none => .undefined
          | some d1 => .ret (some old) (some { v with data := some d1, size := usub v.size 1 })
        | _, _ => .undefined

/-- The operation `vector_replace`; `calloc_old` tells whether the block for
the returned copy is obtained.  The result is the copy's bytes. -/
def vector_replace (p : Option vector) (element : List Nat) (pos : Nat) (calloc_old : Bool) :
    Outcome (Option (List Nat)) :=
  match vector_at p pos with
  | none => .ret none p
  | some tmp =>
    match p with
    | none => .ret none p
    | some v =>
      if !calloc_old then .ret none p
      else
        match v.data, view v tmp with
        | some d, some old =>
          match memcpy d (umul pos v.data_size) element v.data_size with
          | none => .undefined
          | some d1 => .ret (some old) (some { v with data := some d1 })
        | _, _ => .undefined

/-- The operation `vector_shrink`; `r` is the answer of its `realloc` call. -/
def vector_shrink : Option vector → Option (List Nat) → Outcome Nat
  | none, _ => .ret 0 none
  | some v, r =>
    match v.data with
    | none => .ret 0 (some v)
    | some _ =>
      let new_capacity := v.size
      match realloc v.data (umul new_capacity v.data_size) r with
      | .null => .ret v.capacity (some v)
      | .nullZero => .dangling v.capacity v
      | .block tmp => .ret new_capacity (some { v with capacity := new_capacity, data := some tmp })

/-- The loop of `vector_index_of` from byte offset `i` on; the first numeric
argument bounds the number of iterations and `none` means the bound was
reached.  A null comparator cannot be called, and the comparator reads one
element at `data + i`.  The loop body is not entered when `data_size` is zero,
so the quotient `i / data_size` is defined. -/
def index_of_loop (N_EXISTS : Int) (v : vector) (d element : List Nat)
    (cmpr : Option Comparator) : Nat → Nat → Option (Outcome Int)
  | 0, _ => none
  | fuel + 1, i =>
    if i < umul v.size v.data_size then
      match cmpr with
      | none => some .undefined
      | some c =>
        if i + v.data_size ≤ d.length then
          if c element ((d.drop i).take v.data_size) = 0 then
            some (.ret (toLongLong (i / v.data_size)) (some v))
          else index_of_loop N_EXISTS v d element cmpr fuel (uadd i v.data_size)
        else some .undefined
    else some (.ret N_EXISTS (some v))

/-- The operation `vector_index_of`, whose result is a `long long`; `N_EXISTS`
is the header constant returned after the loop and `fuel` bounds the number of
loop iterations (`none`: bound reached). -/
def vector_index_of (N_EXISTS : Int) (fuel : Nat) :
    Option vector → List Nat → Option Comparator → Option (Outcome Int)
  | none, _, _ => some (.ret (-1) none)
  | some v, element, cmpr =>
    match v.data with
    | none => some (.ret (-1) (some v))
    | some d => index_of_loop N_EXISTS v d element cmpr fuel 0

/-- The operation `vector_sort`; `qsort` may not be given a null comparator. -/
def vector_sort : Option vector → Option Comparator → Outcome Unit
  | none, _ => .ret () none
  | some v, cmpr =>
    match v.data with
    | none => .ret () (some v)
    | some d =>
      match cmpr with
      | none => .undefined
      | some c =>
        match qsort d v.size v.data_size c with
        | none => .undefined
        | some d1 => .ret () (some { v with data := some d1 })

/-- The operation `vector_find`: the returned pointer is an offset into the
buffer.  The branches for a null vector or buffer, or a dangling buffer
pointer, after `vector_sort` cannot be reached and are there to make the match
complete. -/
def vector_find : Option vector → List Nat → Option Comparator → Outcome (Option Nat)
  | none, _, _ => .ret none none
  | some v, element, cmpr =>
    match v.data with
    | none => .ret none (some v)
    | some _ =>
      match cmpr with
      | none => .ret none (some v)
      | some c =>
        match vector_sort (some v) (some c) with
        | .undefined => .undefined
        | .dangling _ _ => .undefined
        | .ret _ none => .undefined
        | .ret _ (some v1) =>
          match v1.data with
          | none => .undefined
          | some d1 => .ret (bsearch element d1 v1.size v1.data_size c) (some v1)

/-! ## Vocabulary of the statements -/

/-- The elements a vector holds, in index order: element `i` is what `vector_at`
shows at position `i`, for `i < size`; `none` when some element cannot be read. -/
def contents (v : vector) : Option (List (List Nat)) :=
  (List.range v.size).mapM fun i => (vector_at (some v) i).bind (view v)

/-- Pushes the elements in order, the `k`-th call receiving the `k`-th
allocator answer; `none` as soon as a call does not return `true`. -/
def push_all (GROWTH_FACTOR : Nat) : vector → List (List Nat × Option (List Nat)) → Option vector
  | v, [] => some v
  | v, (x, r) :: rest =>
    match vector_push GROWTH_FACTOR (some v) x r with
    | .ret true (some v1) => push_all GROWTH_FACTOR v1 rest
    | _ => none

/-- Initial capacity used in the worked examples. Modelled from the spec: the
header that defines `VECT_INIT_CAPACITY` is absent; the spec's scenario reports
capacity 10 for a new vector. -/
def specInitCapacity : Nat := 10

/-- Growth exponent used in the worked examples. Modelled from the spec: the
header that defines `GROWTH_FACTOR` is absent; the spec describes growth as
doubling, a left shift by one. -/
def specGrowthFactor : Nat := 1

/-- The buffer of `v` stores the elements `xs`, in order, in its first
`xs.length` slots of `es` bytes each, and no offset into it wraps. -/
def Holds (es : Nat) (v : vector) (xs : List (List Nat)) : Prop :=
  v.data_size = es ∧ v.size = xs.length ∧
    ∃ d, v.data = some d ∧ d.length < ULL ∧ xs.length * es ≤ d.length ∧
      ∀ i (h : i < xs.length), (d.drop (i * es)).take es = xs[i]

/-! ## Worked examples

Four-byte elements are written least significant byte first. -/

/-- A new vector of four-byte elements. -/
def freshVector : vector :=
  { size := 0, capacity := 10, data_size := 4, data := some (List.replicate 40 0) }

/-- The vector of the spec's scenario after pushing 1, 2, 3. -/
def scenarioVector : vector :=
  { size := 3, capacity := 10, data_size := 4,
    data := some ([1, 0, 0, 0, 2, 0, 0, 0, 3, 0, 0, 0] ++ List.replicate 28 0) }

/-- What `vector_remove_at` at position 0 leaves of `scenarioVector`. -/
def removedVector : vector :=
  { size := 2, capacity := 10, data_size := 4,
    data := some ([0, 0, 0, 2, 0, 0, 0, 3, 3, 0, 0, 0] ++ List.replicate 28 0) }

/-- What `vector_push` of 4 makes of `scenarioVector`. -/
def pushedVector : vector :=
  { size := 4, capacity := 10, data_size := 4,
    data := some ([1, 0, 0, 0, 2, 0, 0, 0, 3, 0, 0, 0, 4, 0, 0, 0] ++ List.replicate 24 0) }

/-- What `vector_reserve` with `2 ^ 62 + 1` makes of `freshVector`. -/
def reservedVector : vector :=
  { size := 0, capacity := 4611686018427387905, data_size := 4, data := some [0, 0, 0, 0] }

/-- A vector of one-byte elements whose buffer is full. -/
def fullVector : vector :=
  { size := 2, capacity := 2, data_size := 1, data := some [1, 2] }

/-- A new vector of two-byte elements. -/
def freshPairs : vector :=
  { size := 0, capacity := 10, data_size := 2, data := some (List.replicate 20 0) }

/-- Eleven pushes of two-byte elements; the allocator grants every request
and hands out blocks filled with the byte 170. -/
def elevenPushes : List (List Nat × Option (List Nat)) :=
  (List.range 11).map fun k => ([k + 1, 0], some (List.replicate 64 170))

/-- The vector after `elevenPushes`: the eleventh push doubled the capacity. -/
def grownPairs : vector :=
  { size := 11, capacity := 20, data_size := 2,
    data := some ([1, 0, 2, 0, 3, 0, 4, 0, 5, 0, 6, 0, 7, 0, 8, 0, 9, 0, 10, 0, 11, 0] ++
      List.replicate 18 0) }

/-- A comparator that orders byte records totally: swapping the arguments
swaps the sign of the result, and "not greater" is transitive. -/
def TotalOrder (cmp : Comparator) : Prop :=
  (∀ a b, cmp a b < 0 ↔ 0 < cmp b a) ∧ ∀ a b c, cmp a b ≤ 0 → cmp b c ≤ 0 → cmp a c ≤ 0

/-- The number a byte record denotes, least significant byte first. -/
def littleEndian (a : List Nat) : Nat :=
  a.foldr (fun b acc => b + 256 * acc) 0

/-- A comparator ordering byte records by the number they denote. -/
def compareValues : Comparator :=
  fun a b => (littleEndian a : Int) - (littleEndian b : Int)

/-- A vector holding the four-byte elements 99, 3. -/
def pairVector : vector :=
  { size := 2, capacity := 10, data_size := 4,
    data := some ([99, 0, 0, 0, 3, 0, 0, 0] ++ List.replicate 32 0) }

/-- What `vector_find` leaves of `pairVector`: the elements 3, 99. -/
def sortedPairVector : vector :=
  { size := 2, capacity := 10, data_size := 4,
    data := some ([3, 0, 0, 0, 99, 0, 0, 0] ++ List.replicate 32 0) }

/-- What `vector_resize` with `2 ^ 62 + 1` makes of `freshVector`. -/
def resizedVector : vector :=
  { size := 4611686018427387905, capacity := 4611686018427387905, data_size := 4,
    data := some [0, 0, 0, 0] }

/-- What `vector_shrink` makes of `freshVector` when `realloc` hands out a block
of zero bytes. -/
def emptyShrunk : vector :=
  { size := 0, capacity := 0, data_size := 4, data := some [] }

/-- A full vector of ten elements of `2 ^ 30` bytes each. -/
def hugeElements : vector :=
  { size := 10, capacity := 10, data_size := 1073741824,
    data := some (List.replicate (10 * 1073741824) 0) }

/-- A vector holding the one-byte elements 1, 2, 3. -/
def byteVector : vector :=
  { size := 3, capacity := 10, data_size := 1, data := some ([1, 2, 3] ++ List.replicate 7 0) }

/-- What `vector_init` returns for element size 1844674407370955162, whose
byte count `2 ^ 64 + 4` wraps to 4. -/
def wrappedInit : vector :=
  { size := 0, capacity := 10, data_size := 1844674407370955162, data := some [0, 0, 0, 0] }

/-- What `vector_init` returns for element size `2 ^ 63`, whose byte count
wraps to 0. -/
def wrappedEmpty : vector :=
  { size := 0, capacity := 10, data_size := 9223372036854775808, data := some [] }

/-- What `vector_resize` to 10 makes of `wrappedEmpty`. -/
def wrappedFull : vector :=
  { size := 10, capacity := 10, data_size := 9223372036854775808, data := some [] }

/-! ## Lemmas on the library calls -/

theorem memcpy_eq_some {dst src d1 : List Nat} {off n : Nat}
    (h : memcpy dst off src n = some d1) :
    off + n ≤ dst.length ∧ n ≤ src.length ∧
      d1 = dst.take off ++ src.take n ++ dst.drop (off + n) := by
  unfold memcpy at h
  split at h
  · rename_i hc
    simp only [Option.some.injEq] at h
    exact ⟨hc.1, hc.2, h.symm⟩
  · simp at h

theorem memset_eq_some {dst d1 : List Nat} {off n : Nat}
    (h : memset dst off n = some d1) :
    off + n ≤ dst.length ∧
      d1 = dst.take off ++ List.replicate n 0 ++ dst.drop (off + n) := by
  unfold memset at h
  split at h
  · rename_i hc
    simp only [Option.some.injEq] at h
    exact ⟨hc, h.symm⟩
  · simp at h

theorem realloc_eq_some {old r : Option (List Nat)} {n : Nat} {tmp : List Nat}
    (h : realloc old n r = .block tmp) :
    tmp.length = n ∧ ∀ k, k ≤ n → k ≤ (old.getD []).length → tmp.take k = (old.getD []).take k := by
  unfold realloc at h
  cases r with
  | none =>
    simp only at h
    split at h <;> exact absurd h (by simp)
  | some junk =>
    simp only [Realloc.block.injEq] at h
    subst h
    constructor
    · simp
      omega
    · intro k hk hk2
      rw [List.take_append_of_le_length (by simp; omega)]
      rw [List.take_take]
      congr 1
      omega

/-- Bytes `[a, a + b)` of a block depend only on a prefix that covers them. -/
theorem slice_congr {l1 l2 : List Nat} {a b c : Nat} (h : l1.take c = l2.take c)
    (hab : a + b ≤ c) : (l1.drop a).take b = (l2.drop a).take b := by
  have key : ∀ l : List Nat, (l.drop a).take b = ((l.take c).drop a).take b := by
    intro l
    rw [List.drop_take, List.take_take]
    congr 1
    omega
  rw [key l1, key l2, h]

theorem resize_internal_true {GF : Nat} {v : vector} {r : Option (List Nat)} {p : Option vector}
    (h : vector_resize_internal GF v r = .ret true p) :
    ∃ tmp d1, realloc v.data (umul (ushl v.capacity GF) v.data_size) r = .block tmp ∧
      memset tmp (umul v.size v.data_size)
        (usub (umul (ushl v.capacity GF) v.data_size) (umul v.size v.data_size)) = some d1 ∧
      p = some { v with capacity := ushl v.capacity GF, data := some d1 } := by
  unfold vector_resize_internal at h
  split at h
  · simp at h
  · simp only at h
    split at h
    · simp at h
    · split at h
      · simp at h
      · split at h
        · simp at h
        · simp at h
        · rename_i tmp htmp
          split at h
          · simp at h
          · rename_i d1 hd1
            simp only [Outcome.ret.injEq, true_and] at h
            exact ⟨tmp, d1, htmp, hd1, h.symm⟩

theorem resize_internal_false {GF : Nat} {v : vector} {r : Option (List Nat)} {p : Option vector}
    (h : vector_resize_internal GF v r = .ret false p) : p = some v := by
  unfold vector_resize_internal at h
  split at h
  · simp at h; exact h.symm
  · simp only at h
    split at h
    · simp at h
    · split at h
      · simp at h; exact h.symm
      · split at h
        · simp at h; exact h.symm
        · simp at h
        · split at h
          · simp at h
          · simp at h

theorem push_true {GF : Nat} {v v1 : vector} {x : List Nat} {r : Option (List Nat)}
    (h : vector_push GF (some v) x r = .ret true (some v1)) :
    ∃ vm dm d1, (v.size ≠ v.capacity ∧ vm = v ∨
        v.size = v.capacity ∧ vector_resize_internal GF v r = .ret true (some vm)) ∧
      vm.data = some dm ∧
      memcpy dm (umul vm.size vm.data_size) x vm.data_size = some d1 ∧
      v1 = { vm with data := some d1, size := uadd vm.size 1 } := by
  simp only [vector_push] at h
  cases hdata : v.data with
  | none => simp [hdata] at h
  | some d0 =>
    simp only [hdata] at h
    split at h
    · simp at h
    · simp at h
    · simp at h
    · simp at h
    · simp at h
    · rename_i vm hg
      split at h
      · simp at h
      · rename_i dm hdm
        split at h
        · simp at h
        · rename_i d1 hd1
          simp only [Outcome.ret.injEq, true_and, Option.some.injEq] at h
          refine ⟨vm, dm, d1, ?_, hdm, hd1, h.symm⟩
          split at hg
          · rename_i hfull
            exact Or.inr ⟨hfull, hg⟩
          · rename_i hne
            simp only [Outcome.ret.injEq, true_and, Option.some.injEq] at hg
            exact Or.inl ⟨hne, hg.symm⟩


/-! ## Pushing keeps what is stored -/

theorem push_step {GF es : Nat} {v v1 : vector} {xs : List (List Nat)} {x : List Nat}
    {r : Option (List Nat)} (hes : 0 < es) (hinv : Holds es v xs) (hx : x.length = es)
    (h : vector_push GF (some v) x r = .ret true (some v1)) : Holds es v1 (xs ++ [x]) := by
  obtain ⟨vm, dm, d1, hcase, hdm, hcpy, rfl⟩ := push_true h
  obtain ⟨hds, hsz, d, hd, hlt, hle, hel⟩ := hinv
  have hoff : umul v.size v.data_size = xs.length * es := by
    unfold umul
    rw [hds, hsz]
    exact Nat.mod_eq_of_lt (lt_of_le_of_lt hle hlt)
  have hvm : vm.size = v.size ∧ vm.data_size = v.data_size ∧ dm.length < ULL ∧
      dm.take (xs.length * es) = d.take (xs.length * es) := by
    rcases hcase with ⟨_, rfl⟩ | ⟨_, hg⟩
    · rw [hd] at hdm
      cases hdm
      exact ⟨rfl, rfl, hlt, rfl⟩
    · obtain ⟨tmp, t1, hre, hms, hp⟩ := resize_internal_true hg
      cases hp
      simp only [Option.some.injEq] at hdm
      subst hdm
      obtain ⟨hlen, hpre⟩ := realloc_eq_some hre
      obtain ⟨hb, rfl⟩ := memset_eq_some hms
      rw [hoff] at hb
      rw [hoff]
      refine ⟨rfl, rfl, ?_, ?_⟩
      · have hn : umul (ushl v.capacity GF) v.data_size < ULL := Nat.mod_lt _ (by decide)
        simp only [List.length_append, List.length_take, List.length_replicate, List.length_drop]
        omega
      · rw [List.append_assoc, List.take_append_of_le_length (by simp; omega), List.take_take,
          Nat.min_self]
        have := hpre (xs.length * es) (by omega) (by rw [hd]; exact hle)
        rw [hd] at this
        exact this
  obtain ⟨hsize, hdsz, hdmlt, hpre⟩ := hvm
  rw [hsize, hdsz, hoff, hds] at hcpy
  obtain ⟨hb, -, rfl⟩ := memcpy_eq_some hcpy
  have hx1 : x.take es = x := by rw [← hx]; exact List.take_length x
  have hn1 : xs.length + 1 ≤ (xs.length + 1) * es := Nat.le_mul_of_pos_right _ hes
  have hmul : (xs.length + 1) * es = xs.length * es + es := by ring
  refine ⟨by rw [← hds, hdsz], ?_, _, rfl, ?_, ?_, ?_⟩
  · simp only [List.length_append, List.length_singleton]
    unfold uadd
    rw [hsize, hsz]
    exact Nat.mod_eq_of_lt (by omega)
  · simp only [List.length_append, List.length_take, List.length_drop]
    omega
  · simp only [List.length_append, List.length_take, List.length_drop, List.length_singleton]
    omega
  · intro i hi
    simp only [List.length_append, List.length_singleton] at hi
    have hlenpre : (List.take (xs.length * es) dm).length = xs.length * es := by
      rw [List.length_take]
      omega
    rw [hx1]
    by_cases hlast : i = xs.length
    · subst hlast
      rw [List.append_assoc, List.drop_left' hlenpre, List.take_left' hx]
      simp
    · have hi1 : i < xs.length := by omega
      have hie : i * es + es ≤ xs.length * es := by
        have := Nat.mul_le_mul_right es (Nat.succ_le_of_lt hi1)
        rw [Nat.succ_mul] at this
        exact this
      have htk : (List.take (xs.length * es) dm ++ x ++
          List.drop (xs.length * es + es) dm).take (xs.length * es) =
          d.take (xs.length * es) := by
        rw [List.append_assoc, List.take_left' hlenpre, hpre]
      rw [slice_congr htk hie, hel i hi1, List.getElem_append_left hi1]

theorem init_holds {C0 es : Nat} {a b : Bool} {v0 : vector}
    (h : vector_init C0 es a b = some v0) : 0 < es ∧ Holds es v0 [] := by
  unfold vector_init at h
  split at h
  · simp at h
  · rename_i hne
    split at h
    · simp at h
    · split at h
      · simp at h
      · split at h
        · simp at h
        · simp only [Option.some.injEq] at h
          subst h
          refine ⟨Nat.pos_of_ne_zero hne, rfl, rfl, _, rfl, ?_, ?_, ?_⟩
          · rw [List.length_replicate]
            exact Nat.mod_lt _ (by decide)
          · simp
          · intro i hi
            simp at hi

theorem push_all_holds {GF es : Nat} (hes : 0 < es) :
    ∀ (todo : List (List Nat × Option (List Nat))) (v v1 : vector) (done : List (List Nat)),
      Holds es v done → (∀ p ∈ todo, p.1.length = es) → push_all GF v todo = some v1 →
      Holds es v1 (done ++ todo.map Prod.fst) := by
  intro todo
  induction todo with
  | nil =>
    intro v v1 done hinv _ h
    simp only [push_all, Option.some.injEq] at h
    subst h
    simpa using hinv
  | cons p rest ih =>
    intro v v1 done hinv hlen h
    obtain ⟨x, r⟩ := p
    simp only [push_all] at h
    split at h
    · rename_i vm hpush
      have hstep := push_step hes hinv (hlen (x, r) (List.mem_cons_self _ _)) hpush
      have := ih vm v1 (done ++ [x]) hstep
        (fun q hq => hlen q (List.mem_cons_of_mem _ hq)) h
      simpa using this
    · simp at h

theorem usub_uadd_one {s : Nat} (h : s < ULL) : usub (uadd s 1) 1 = s := by
  unfold usub uadd ULL at *
  omega

/-! ## The claims -/

/-- C1: starting from a vector that `vector_init` returned, when every one of
the pushes returns `true` (growth included), `vector_size` is the number of
pushes and `vector_at i` shows exactly the bytes of the `i`-th pushed element,
for every `i` below that number. -/
theorem push_all_then_at (VECT_INIT_CAPACITY GROWTH_FACTOR element_size : Nat)
    (calloc_vector calloc_data : Bool) (v0 v : vector)
    (pushes : List (List Nat × Option (List Nat)))
    (hinit : vector_init VECT_INIT_CAPACITY element_size calloc_vector calloc_data = some v0)
    (hlen : ∀ p ∈ pushes, p.1.length = element_size)
    (hall : push_all GROWTH_FACTOR v0 pushes = some v) :
    vector_size (some v) = pushes.length ∧
      ∀ (i : Nat) (hi : i < pushes.length),
        (vector_at (some v) i).bind (view v) = some (pushes[i]).1 := by
  obtain ⟨hes, h0⟩ := init_holds hinit
  have hinv := push_all_holds hes pushes v0 v [] h0 hlen hall
  simp only [List.nil_append] at hinv
  obtain ⟨hds, hsz, d, hd, hlt, hle, hel⟩ := hinv
  rw [List.length_map] at hsz hle
  refine ⟨hsz, ?_⟩
  intro i hi
  have hie : i * element_size + element_size ≤ pushes.length * element_size := by
    have := Nat.mul_le_mul_right element_size (Nat.succ_le_of_lt hi)
    rw [Nat.succ_mul] at this
    exact this
  have hoff : umul i element_size = i * element_size :=
    Nat.mod_eq_of_lt (by omega)
  have hel1 := hel i (by rw [List.length_map]; exact hi)
  simp only [vector_at, hd, hsz, hds, hoff]
  rw [if_neg (by omega)]
  simp only [Option.bind, view, hd, hds]
  rw [if_pos (by omega), hel1]
  simp

/-- C1, at an instance: eleven two-byte elements pushed into a new vector of
capacity 10, the eleventh push growing the buffer. -/
theorem push_all_then_at_witness :
    vector_size (some grownPairs) = elevenPushes.length ∧
      ∀ (i : Nat) (hi : i < elevenPushes.length),
        (vector_at (some grownPairs) i).bind (view grownPairs) = some (elevenPushes[i]).1 :=
  push_all_then_at specInitCapacity specGrowthFactor 2 true true freshPairs grownPairs
    elevenPushes (by decide) (by decide) (by decide)

/-- C2: on the vector holding the four-byte elements 1, 2, 3 (reached by
`vector_init` and three pushes), `vector_remove_at` at position 0 returns the
bytes of 1 and sets size to 2, but it moves the tail down by one byte instead
of one element: the vector then holds `[0,0,0,2]` and `[0,0,0,3]`, not the
elements 2 and 3. -/
theorem remove_at_shifts_by_one_byte :
    (vector_init specInitCapacity 4 true true).bind
        (fun v => push_all specGrowthFactor v
          [([1, 0, 0, 0], none), ([2, 0, 0, 0], none), ([3, 0, 0, 0], none)]) =
        some scenarioVector ∧
      contents scenarioVector = some [[1, 0, 0, 0], [2, 0, 0, 0], [3, 0, 0, 0]] ∧
      vector_remove_at (some scenarioVector) 0 true =
        .ret (some [1, 0, 0, 0]) (some removedVector) ∧
      removedVector.size = 2 ∧
      contents removedVector = some [[0, 0, 0, 2], [0, 0, 0, 3]] ∧
      contents removedVector ≠ some [[2, 0, 0, 0], [3, 0, 0, 0]] :=
  ⟨by decide, by decide, by decide, by decide, by decide, by decide⟩

/-- C3: when `vector_push` of `x` returns `true`, the `vector_pop` that follows
returns a pointer, brings size back to its value before the push, and the
pointer shows the `data_size` bytes of `x`. -/
theorem push_then_pop (GROWTH_FACTOR : Nat) (v v1 : vector) (x : List Nat)
    (r : Option (List Nat)) (hsize : v.size < ULL)
    (hpush : vector_push GROWTH_FACTOR (some v) x r = .ret true (some v1)) :
    ∃ off v2, vector_pop (some v1) = .ret (some off) (some v2) ∧ v2.size = v.size ∧
      view v2 off = some (x.take v.data_size) ∧
      (x.length = v.data_size → view v2 off = some x) := by
  obtain ⟨vm, dm, d1, hcase, hdm, hcpy, rfl⟩ := push_true hpush
  have hvm : vm.size = v.size ∧ vm.data_size = v.data_size := by
    rcases hcase with ⟨_, rfl⟩ | ⟨_, hg⟩
    · exact ⟨rfl, rfl⟩
    · obtain ⟨tmp, t1, -, -, hp⟩ := resize_internal_true hg
      cases hp
      exact ⟨rfl, rfl⟩
  obtain ⟨hsz, hds⟩ := hvm
  rw [hsz, hds] at hcpy
  obtain ⟨hb, hxl, rfl⟩ := memcpy_eq_some hcpy
  have hlenpre : (List.take (umul v.size v.data_size) dm).length = umul v.size v.data_size := by
    rw [List.length_take]
    omega
  have hlenx : (List.take v.data_size x).length = v.data_size := by
    rw [List.length_take]
    omega
  refine ⟨_, _, rfl, ?_, ?_⟩
  · show usub (uadd vm.size 1) 1 = v.size
    rw [hsz]
    exact usub_uadd_one hsize
  · suffices hview : view _ _ = some (x.take v.data_size) from
      ⟨hview, fun hx => by rw [hview, ← hx, List.take_length]⟩
    simp only [view]
    rw [hsz, usub_uadd_one hsize, hds]
    rw [if_pos (by
      simp only [List.length_append, List.length_take, List.length_drop]
      omega)]
    rw [List.append_assoc, List.drop_left' hlenpre, List.take_left' hlenx]

/-- C3, at an instance: pushing 4 onto the vector holding 1, 2, 3 and popping. -/
theorem push_then_pop_witness :
    ∃ off v2, vector_pop (some pushedVector) = .ret (some off) (some v2) ∧
      v2.size = scenarioVector.size ∧
      view v2 off = some (List.take scenarioVector.data_size [4, 0, 0, 0]) ∧
      (([4, 0, 0, 0] : List Nat).length = scenarioVector.data_size →
        view v2 off = some [4, 0, 0, 0]) :=
  push_then_pop specGrowthFactor scenarioVector pushedVector [4, 0, 0, 0] none
    (by decide) (by decide)

/-- C4: on a vector with a buffer and size 0, `vector_pop` does not fail: it
returns a pointer (the offset `(2 ^ 64 - 1) * data_size` reduced modulo
`2 ^ 64`) and leaves size at `2 ^ 64 - 1`. -/
theorem pop_on_empty_underflows (v : vector) (d : List Nat) (hd : v.data = some d)
    (h0 : v.size = 0) :
    vector_pop (some v) =
      .ret (some (umul (ULL - 1) v.data_size)) (some { v with size := ULL - 1 }) := by
  simp only [vector_pop, hd, h0]
  rfl

/-- C4, at an instance: `vector_pop` on the vector `vector_init` returns for
four-byte elements. -/
theorem pop_on_empty_underflows_witness :
    vector_init specInitCapacity 4 true true = some freshVector ∧
      vector_pop (some freshVector) =
        .ret (some 18446744073709551612)
          (some { freshVector with size := 18446744073709551615 }) :=
  ⟨by decide, pop_on_empty_underflows freshVector (List.replicate 40 0) rfl rfl⟩

/-- Postcondition of `vector_init` with the byte count as the code computes it:
element size 0 returns no instance; for a positive element size, a returned
vector has size 0, capacity `VECT_INIT_CAPACITY`, `data_size` equal to the
element size, and a buffer of zero bytes whose length is the product
`VECT_INIT_CAPACITY * element_size` reduced modulo `2 ^ 64` (the exact product
whenever that is below `2 ^ 64`). -/
theorem init_postcondition :
    (∀ (VECT_INIT_CAPACITY : Nat) (calloc_vector calloc_data : Bool),
      vector_init VECT_INIT_CAPACITY 0 calloc_vector calloc_data = none) ∧
    ∀ (VECT_INIT_CAPACITY element_size : Nat) (calloc_vector calloc_data : Bool) (v : vector),
      0 < element_size →
      vector_init VECT_INIT_CAPACITY element_size calloc_vector calloc_data = some v →
      v.size = 0 ∧ v.capacity = VECT_INIT_CAPACITY ∧ v.data_size = element_size ∧
        v.data = some (List.replicate (umul VECT_INIT_CAPACITY element_size) 0) ∧
        (VECT_INIT_CAPACITY * element_size < ULL →
          v.data = some (List.replicate (VECT_INIT_CAPACITY * element_size) 0)) := by
  refine ⟨fun _ _ _ => by simp [vector_init], ?_⟩
  intro C0 es a b v _ h
  unfold vector_init at h
  split at h
  · simp at h
  · split at h
    · simp at h
    · split at h
      · simp at h
      · split at h
        · simp at h
        · simp only [Option.some.injEq] at h
          subst h
          refine ⟨rfl, rfl, rfl, rfl, fun hlt => ?_⟩
          simp only [umul, Nat.mod_eq_of_lt hlt]

/-- C5: `vector_init` with element size 1844674407370955162 and both
allocations succeeding returns a vector of size 0, capacity 10 and that element
size, but its buffer has 4 bytes (the product `2 ^ 64 + 4` wrapped), not the
`VECT_INIT_CAPACITY * element_size` bytes of the claim. -/
theorem init_wrapped_buffer_too_small :
    vector_init specInitCapacity 1844674407370955162 true true = some wrappedInit ∧
      wrappedInit.size = 0 ∧ wrappedInit.capacity = specInitCapacity ∧
      wrappedInit.data_size = 1844674407370955162 ∧
      wrappedInit.data = some [0, 0, 0, 0] ∧
      [0, 0, 0, 0].length < specInitCapacity * 1844674407370955162 :=
  ⟨by decide, by decide, by decide, by decide, by decide, by decide⟩

/-- C6: for every initial capacity from 2 to `LLONG_MAX` there is an element
size below `2 ^ 64`, namely `2 ^ 64 / VECT_INIT_CAPACITY + 1`, whose exact
product with the capacity exceeds `LLONG_MAX` and for which `vector_init`
still returns an instance when both allocations succeed: the product wraps to
at most `VECT_INIT_CAPACITY` bytes, which is the size of the buffer. -/
theorem init_accepts_wrapped_product (VECT_INIT_CAPACITY : Nat) (h2 : 2 ≤ VECT_INIT_CAPACITY)
    (hmax : VECT_INIT_CAPACITY ≤ LLONG_MAX) :
    ULL / VECT_INIT_CAPACITY + 1 < ULL ∧
      LLONG_MAX < VECT_INIT_CAPACITY * (ULL / VECT_INIT_CAPACITY + 1) ∧
      ∃ v d, vector_init VECT_INIT_CAPACITY (ULL / VECT_INIT_CAPACITY + 1) true true = some v ∧
        v.capacity = VECT_INIT_CAPACITY ∧ v.data_size = ULL / VECT_INIT_CAPACITY + 1 ∧
        v.data = some d ∧ d.length ≤ VECT_INIT_CAPACITY := by
  have hdm := Nat.div_add_mod ULL VECT_INIT_CAPACITY
  have hrem : ULL % VECT_INIT_CAPACITY < VECT_INIT_CAPACITY := Nat.mod_lt _ (by omega)
  have h2q : 2 * (ULL / VECT_INIT_CAPACITY) ≤ VECT_INIT_CAPACITY * (ULL / VECT_INIT_CAPACITY) :=
    Nat.mul_le_mul_right _ h2
  have hprod : VECT_INIT_CAPACITY * (ULL / VECT_INIT_CAPACITY + 1) =
      VECT_INIT_CAPACITY * (ULL / VECT_INIT_CAPACITY) + VECT_INIT_CAPACITY := by ring
  generalize ULL / VECT_INIT_CAPACITY = q at hdm h2q hprod ⊢
  generalize ULL % VECT_INIT_CAPACITY = rem at hdm hrem
  generalize VECT_INIT_CAPACITY * q = m at hdm h2q hprod
  have hU : ULL = 18446744073709551616 := by decide
  have hL : LLONG_MAX = 9223372036854775807 := by decide
  have hwrap : umul VECT_INIT_CAPACITY (q + 1) ≤ VECT_INIT_CAPACITY := by
    unfold umul
    rw [hprod, hU]
    omega
  refine ⟨by omega, by omega, ?_⟩
  refine ⟨⟨0, VECT_INIT_CAPACITY, q + 1,
      some (List.replicate (umul VECT_INIT_CAPACITY (q + 1)) 0)⟩,
    List.replicate (umul VECT_INIT_CAPACITY (q + 1)) 0, ?_, rfl, rfl, rfl, ?_⟩
  · unfold vector_init
    rw [if_neg (by omega), if_neg (by omega)]
    rfl
  · rw [List.length_replicate]
    exact hwrap

/-- C6, at an instance: initial capacity 10 and element size
1844674407370955162, whose product is `2 ^ 64 + 4`. -/
theorem init_accepts_wrapped_product_witness :
    1844674407370955162 < ULL ∧ LLONG_MAX < specInitCapacity * 1844674407370955162 ∧
      ∃ v d, vector_init specInitCapacity 1844674407370955162 true true = some v ∧
        v.capacity = specInitCapacity ∧ v.data_size = 1844674407370955162 ∧
        v.data = some d ∧ d.length ≤ specInitCapacity :=
  init_accepts_wrapped_product specInitCapacity (by decide) (by decide)

/-- C7: a vector with a buffer, size 0 and a capacity below `2 ^ 64 - 1`
satisfies `size ≤ capacity`, and after `vector_pop` it does not. -/
theorem pop_breaks_size_le_capacity (v : vector) (d : List Nat) (hd : v.data = some d)
    (h0 : v.size = 0) (hcap : v.capacity < ULL - 1) :
    v.size ≤ v.capacity ∧
      ∃ p v1, vector_pop (some v) = .ret p (some v1) ∧ ¬ v1.size ≤ v1.capacity := by
  have hsub : usub 0 1 = ULL - 1 := by decide
  refine ⟨by omega, some (umul (usub v.size 1) v.data_size),
    { v with size := usub v.size 1 }, by simp only [vector_pop, hd], ?_⟩
  show ¬ usub v.size 1 ≤ v.capacity
  rw [h0]
  omega

/-- C7, at an instance: `vector_pop` on a new vector of four-byte elements. -/
theorem pop_breaks_size_le_capacity_witness :
    freshVector.size ≤ freshVector.capacity ∧
      ∃ p v1, vector_pop (some freshVector) = .ret p (some v1) ∧ ¬ v1.size ≤ v1.capacity :=
  pop_breaks_size_le_capacity freshVector (List.replicate 40 0) rfl rfl (by decide)

/-- C8: on a new vector of four-byte elements, whose capacity times element
size is within `LLONG_MAX`, `vector_reserve` with `2 ^ 62 + 1` and a successful
reallocation returns `2 ^ 62 + 1` and installs it as capacity over a four-byte
buffer: capacity times element size is then `2 ^ 64 + 4`, above `LLONG_MAX`. -/
theorem reserve_breaks_byte_bound :
    vector_init specInitCapacity 4 true true = some freshVector ∧
      freshVector.capacity * freshVector.data_size ≤ LLONG_MAX ∧
      vector_reserve (some freshVector) 4611686018427387905 (some []) =
        .ret 4611686018427387905 (some reservedVector) ∧
      LLONG_MAX < reservedVector.capacity * reservedVector.data_size :=
  ⟨by decide, by decide, by decide, by decide⟩

/-- Where growth fails on a full vector without `realloc` having been asked for
zero bytes (the bound on capacity trips, or the bound on the byte count trips,
or `realloc` returns null to a request of at least one byte), `vector_push`
returns `false` and the vector, buffer included, is what it was. -/
theorem push_growth_failure_keeps_block (GROWTH_FACTOR : Nat) (v : vector) (x : List Nat)
    (r : Option (List Nat)) (hfull : v.size = v.capacity)
    (hfail : LLONG_MAX / 2 ^ GROWTH_FACTOR < v.capacity ∨
      (v.data_size ≠ 0 ∧
        (LLONG_MAX / v.data_size < umul (ushl v.capacity GROWTH_FACTOR) v.data_size ∨
          (r = none ∧ umul (ushl v.capacity GROWTH_FACTOR) v.data_size ≠ 0)))) :
    vector_push GROWTH_FACTOR (some v) x r = .ret false (some v) := by
  simp only [vector_push]
  cases hdata : v.data with
  | none => rfl
  | some d0 =>
    have hgrow : vector_resize_internal GROWTH_FACTOR v r = .ret false (some v) := by
      unfold vector_resize_internal
      by_cases h1 : LLONG_MAX / 2 ^ GROWTH_FACTOR < v.capacity
      · rw [if_pos h1]
      · rw [if_neg h1]
        rcases hfail with h | ⟨hds, h⟩
        · exact absurd h h1
        · simp only [if_neg hds]
          rcases h with h | ⟨h, hnz⟩
          · rw [if_pos h]
          · subst h
            split
            · rfl
            · simp [realloc, hnz]
    simp only [hfull, if_true, hgrow]

/-- C9: `vector_init` with element size `2 ^ 63` returns a vector of capacity 10
over a block of zero bytes (the byte count wraps to 0), and `vector_resize` to
10 makes it full. The next `vector_push` passes both limit checks, since the
new byte count `20 * 2 ^ 63` wraps to 0 as well, and asks `realloc` for zero
bytes; on a null answer it returns `false`, but the buffer is not known to be
what it was: an allocator such as glibc has freed it. -/
theorem push_growth_zero_bytes_dangles (x : List Nat) :
    vector_init specInitCapacity 9223372036854775808 true true = some wrappedEmpty ∧
      vector_resize (some wrappedEmpty) 10 none = .ret 10 (some wrappedFull) ∧
      wrappedFull.size = wrappedFull.capacity ∧
      vector_push specGrowthFactor (some wrappedFull) x none = .dangling false wrappedFull :=
  ⟨by decide, by decide, by decide, rfl⟩

/-- C10: for `k` at most the capacity, `vector_reserve k` returns the capacity
and leaves the vector, buffer included, as it was, whatever the allocator
would have answered. -/
theorem reserve_within_capacity_noop (v : vector) (k : Nat) (r : Option (List Nat))
    (hk : k ≤ v.capacity) :
    vector_reserve (some v) k r = .ret v.capacity (some v) := by
  simp only [vector_reserve, if_pos hk]
  split <;> rfl

/-- C10, at an instance: reserving 10 on the scenario vector of capacity 10. -/
theorem reserve_within_capacity_noop_witness :
    vector_reserve (some scenarioVector) 10 (some []) = .ret 10 (some scenarioVector) :=
  reserve_within_capacity_noop scenarioVector 10 (some []) (by decide)

/-! ## Lemmas on stored elements -/

theorem umul_of_lt {a b : Nat} (h : a * b < ULL) : umul a b = a * b :=
  Nat.mod_eq_of_lt h

/-- Bytes `[a, a + b)` of a block depend only on a suffix that covers them. -/
theorem slice_congr_drop {l1 l2 : List Nat} {a b c : Nat} (h : l1.drop c = l2.drop c)
    (hca : c ≤ a) : (l1.drop a).take b = (l2.drop a).take b := by
  have key : ∀ l : List Nat, l.drop a = (l.drop c).drop (a - c) := by
    intro l
    rw [List.drop_drop]
    congr 1
    omega
  rw [key l1, key l2, h]

/-- Overwriting `[off, off + mid.length)` keeps the bytes before `off`. -/
theorem splice_take (d mid : List Nat) (off n : Nat) (h : off ≤ d.length) :
    (d.take off ++ mid ++ d.drop (off + n)).take off = d.take off := by
  rw [List.append_assoc, List.take_left' (by rw [List.length_take]; omega)]

/-- Overwriting `[off, off + mid.length)` keeps the bytes from `off + mid.length` on. -/
theorem splice_drop (d mid : List Nat) (off : Nat) (h : off ≤ d.length) :
    (d.take off ++ mid ++ d.drop (off + mid.length)).drop (off + mid.length) =
      d.drop (off + mid.length) := by
  rw [List.drop_left' (by rw [List.length_append, List.length_take]; omega)]

/-- Overwriting `[off, off + mid.length)` puts `mid` there. -/
theorem splice_mid (d mid rest : List Nat) (off : Nat) (h : off ≤ d.length) :
    ((d.take off ++ mid ++ rest).drop off).take mid.length = mid := by
  rw [List.append_assoc, List.drop_left' (by rw [List.length_take]; omega),
    List.take_left' rfl]

theorem mul_succ_le {i n : Nat} (es : Nat) (h : i < n) : i * es + es ≤ n * es := by
  have := Nat.mul_le_mul_right es (Nat.succ_le_of_lt h)
  rw [Nat.succ_mul] at this
  exact this

/-- Each element a vector holds has `es` bytes. -/
theorem Holds.length_eq {es : Nat} {v : vector} {xs : List (List Nat)} (h : Holds es v xs) :
    ∀ x ∈ xs, x.length = es := by
  obtain ⟨-, -, d, -, -, hle, hel⟩ := h
  intro x hx
  obtain ⟨i, hi, rfl⟩ := List.getElem_of_mem hx
  rw [← hel i hi, List.length_take, List.length_drop]
  have := mul_succ_le es hi
  omega

/-- What `vector_at` and `view` show of a vector holding `xs`. -/
theorem Holds.at_view {es : Nat} {v : vector} {xs : List (List Nat)} (h : Holds es v xs)
    (i : Nat) (hi : i < xs.length) :
    vector_at (some v) i = some (i * es) ∧ view v (i * es) = some xs[i] := by
  obtain ⟨hds, hsz, d, hd, hlt, hle, hel⟩ := h
  have hie := mul_succ_le es hi
  have hoff : umul i es = i * es := umul_of_lt (by omega)
  constructor
  · simp only [vector_at, hd, hsz, hds, hoff]
    rw [if_neg (by omega)]
  · simp only [view, hd, hds]
    rw [if_pos (by omega), hel i hi]

theorem usub_of_le {a b : Nat} (hab : b ≤ a) (ha : a < ULL) : usub a b = a - b := by
  have hU : ULL = 18446744073709551616 := by decide
  unfold usub
  rw [hU] at ha ⊢
  omega

/-- Bytes `[a, a + b)` of a truncated block that still covers them. -/
theorem slice_take (l : List Nat) {a b m : Nat} (h : a + b ≤ m) :
    ((l.take m).drop a).take b = (l.drop a).take b := by
  rw [List.drop_take, List.take_take]
  congr 1
  omega

/-- Bytes `[a, a + b)` of `A ++ B ++ C` that lie inside `B`. -/
theorem slice_append_mid (A B C : List Nat) {a b : Nat} (h1 : A.length ≤ a)
    (h2 : a + b ≤ A.length + B.length) :
    ((A ++ B ++ C).drop a).take b = (B.drop (a - A.length)).take b := by
  rw [List.append_assoc, List.drop_append_eq_append_drop, List.drop_eq_nil_of_le h1,
    List.nil_append, List.drop_append_of_le_length (by omega),
    List.take_append_of_le_length (by rw [List.length_drop]; omega)]

/-! ## Lemmas for searching and sorting -/

theorem uadd_of_lt {a b : Nat} (h : a + b < ULL) : uadd a b = a + b :=
  Nat.mod_eq_of_lt h

theorem toLongLong_of_le {n : Nat} (h : n ≤ LLONG_MAX) : toLongLong n = (n : Int) := by
  unfold toLongLong
  rw [if_pos h]

/-- The loop of `vector_index_of`, started at element `k` with no match below
`j`, returns `j` when element `j` matches. -/
theorem index_of_loop_found {N : Int} {es : Nat} {v : vector} {xs : List (List Nat)}
    {d x : List Nat} {cmp : Comparator} (hds : v.data_size = es) (hsz : v.size = xs.length)
    (hlt : d.length < ULL) (hle : xs.length * es ≤ d.length)
    (hel : ∀ i (h : i < xs.length), (d.drop (i * es)).take es = xs[i]) (hes : 0 < es)
    (j : Nat) (hj : j < xs.length) (hmatch : cmp x xs[j] = 0)
    (hfirst : ∀ i (hi : i < j), cmp x (xs[i]) ≠ 0) :
    ∀ (fuel k : Nat), k ≤ j → j - k < fuel →
      index_of_loop N v d x (some cmp) fuel (k * es) =
        some (.ret (toLongLong j) (some v)) := by
  intro fuel
  induction fuel with
  | zero => intro k _ h; omega
  | succ fuel ih =>
    intro k hkj hfuel
    have hk : k < xs.length := by omega
    have hke := mul_succ_le es hk
    have hbound : umul v.size es = xs.length * es := by
      rw [hsz]
      exact umul_of_lt (by omega)
    have hcond : k * es < xs.length * es := by omega
    have hin : k * es + es ≤ d.length := by omega
    simp only [index_of_loop, hds, hbound]
    rw [if_pos hcond, if_pos hin, hel k hk]
    by_cases hkeq : k = j
    · subst hkeq
      rw [if_pos hmatch, Nat.mul_div_cancel _ hes]
    · have hklt : k < j := by omega
      rw [if_neg (hfirst k hklt)]
      have hnext : uadd (k * es) es = (k + 1) * es := by
        rw [Nat.add_mul, Nat.one_mul]
        exact uadd_of_lt (by omega)
      rw [hnext]
      exact ih (k + 1) (by omega) (by omega)

/-- The loop of `vector_index_of`, started at element `k` with no match from
`k` on, returns `N_EXISTS`. -/
theorem index_of_loop_absent {N : Int} {es : Nat} {v : vector} {xs : List (List Nat)}
    {d x : List Nat} {cmp : Comparator} (hds : v.data_size = es) (hsz : v.size = xs.length)
    (hlt : d.length < ULL) (hle : xs.length * es ≤ d.length)
    (hel : ∀ i (h : i < xs.length), (d.drop (i * es)).take es = xs[i]) (hes : 0 < es)
    (hnone : ∀ i (hi : i < xs.length), cmp x (xs[i]) ≠ 0) :
    ∀ (fuel k : Nat), k ≤ xs.length → xs.length - k < fuel →
      index_of_loop N v d x (some cmp) fuel (k * es) = some (.ret N (some v)) := by
  intro fuel
  induction fuel with
  | zero => intro k _ h; omega
  | succ fuel ih =>
    intro k hkn hfuel
    have hbound : umul v.size es = xs.length * es := by
      rw [hsz]
      exact umul_of_lt (by omega)
    simp only [index_of_loop, hds, hbound]
    by_cases hk : k < xs.length
    · have hke := mul_succ_le es hk
      have hcond : k * es < xs.length * es := by omega
      have hin : k * es + es ≤ d.length := by omega
      rw [if_pos hcond, if_pos hin, hel k hk, if_neg (hnone k hk)]
      have hnext : uadd (k * es) es = (k + 1) * es := by
        rw [Nat.add_mul, Nat.one_mul]
        exact uadd_of_lt (by omega)
      rw [hnext]
      exact ih (k + 1) (by omega) (by omega)
    · have hkeq : k = xs.length := by omega
      subst hkeq
      rw [if_neg (by omega)]

/-- The records read off a block that stores `xs`. -/
theorem records_eq {es : Nat} {d : List Nat} {xs : List (List Nat)}
    (hel : ∀ i (h : i < xs.length), (d.drop (i * es)).take es = xs[i]) :
    records d xs.length es = xs := by
  apply List.ext_getElem
  · simp [records]
  · intro i h1 h2
    simp only [records, List.getElem_map, List.getElem_range]
    exact hel i h2

theorem length_flatten_of_length {es : Nat} :
    ∀ (ys : List (List Nat)), (∀ y ∈ ys, y.length = es) → ys.flatten.length = ys.length * es := by
  intro ys
  induction ys with
  | nil => intro _; simp
  | cons y t ih =>
    intro h
    rw [List.flatten_cons, List.length_append, ih (fun z hz => h z (List.mem_cons_of_mem _ hz)),
      h y (List.mem_cons_self _ _), List.length_cons, Nat.succ_mul]
    omega

/-- Record `i` of the concatenation of records of `es` bytes each. -/
theorem slice_flatten {es : Nat} (rest : List Nat) :
    ∀ (ys : List (List Nat)), (∀ y ∈ ys, y.length = es) →
      ∀ i (hi : i < ys.length), ((ys.flatten ++ rest).drop (i * es)).take es = ys[i] := by
  intro ys
  induction ys with
  | nil => intro _ i hi; simp at hi
  | cons y t ih =>
    intro h i hi
    have hy : y.length = es := h y (List.mem_cons_self _ _)
    rw [List.flatten_cons, List.append_assoc]
    cases i with
    | zero =>
      rw [Nat.zero_mul, List.drop_zero, List.take_left' hy]
      rfl
    | succ k =>
      have hk : k < t.length := by simpa using hi
      have hoff : (k + 1) * es = y.length + k * es := by rw [hy, Nat.succ_mul]; omega
      rw [hoff, List.drop_append, ih (fun z hz => h z (List.mem_cons_of_mem _ hz)) k hk]
      rfl

theorem TotalOrder.refl {cmp : Comparator} (h : TotalOrder cmp) (a : List Nat) :
    cmp a a = 0 := by
  have := h.1 a a
  omega

theorem TotalOrder.swap_le {cmp : Comparator} (h : TotalOrder cmp) {a b : List Nat}
    (hab : 0 ≤ cmp a b) : cmp b a ≤ 0 := by
  have := h.1 a b
  omega

/-- In a sorted list a key below element `m` is below every later element. -/
theorem key_lt_of_sorted {cmp : Comparator} (h : TotalOrder cmp) {ys : List (List Nat)}
    (hs : ys.Sorted (fun a b => cmp a b ≤ 0)) (x : List Nat) {m j : Nat} (hm : m < ys.length)
    (hj : j < ys.length) (hmj : m ≤ j) (hlt : cmp x ys[m] < 0) : cmp x ys[j] < 0 := by
  by_cases heq : m = j
  · subst heq
    exact hlt
  · have hrel : cmp ys[m] ys[j] ≤ 0 :=
      List.pairwise_iff_getElem.mp hs m j hm hj (by omega)
    by_contra hcon
    have h1 : cmp ys[j] x ≤ 0 := h.swap_le (by omega)
    have h2 := h.2 _ _ _ hrel h1
    have h3 := h.1 x ys[m]
    omega

/-- In a sorted list a key above element `m` is above every earlier element. -/
theorem key_gt_of_sorted {cmp : Comparator} (h : TotalOrder cmp) {ys : List (List Nat)}
    (hs : ys.Sorted (fun a b => cmp a b ≤ 0)) (x : List Nat) {m j : Nat} (hm : m < ys.length)
    (hj : j < ys.length) (hjm : j ≤ m) (hgt : 0 < cmp x ys[m]) : 0 < cmp x ys[j] := by
  by_cases heq : j = m
  · subst heq
    exact hgt
  · have hrel : cmp ys[j] ys[m] ≤ 0 :=
      List.pairwise_iff_getElem.mp hs j m hj hm (by omega)
    by_contra hcon
    have h2 := h.2 x _ _ (by omega) hrel
    omega

/-- Binary search over a sorted array of records finds a record that compares
equal to the key exactly when there is one. -/
theorem bsearch_loop_spec {cmp : Comparator} (h : TotalOrder cmp) {es : Nat} {d : List Nat}
    {ys : List (List Nat)} (hs : ys.Sorted (fun a b => cmp a b ≤ 0))
    (hel : ∀ i (h : i < ys.length), (d.drop (i * es)).take es = ys[i]) (x : List Nat) :
    ∀ (fuel l u : Nat), l ≤ u → u ≤ ys.length → u - l ≤ fuel →
      (∀ i (hi : i < ys.length), i < l → 0 < cmp x (ys[i])) →
      (∀ i (hi : i < ys.length), u ≤ i → cmp x (ys[i]) < 0) →
      (∃ i, ∃ (hi : i < ys.length),
          bsearch_loop x d es cmp fuel l u = some (i * es) ∧ cmp x (ys[i]) = 0) ∨
        (bsearch_loop x d es cmp fuel l u = none ∧
          ∀ i (hi : i < ys.length), cmp x (ys[i]) ≠ 0) := by
  intro fuel
  induction fuel with
  | zero =>
    intro l u hlu hun hfuel hlow hhigh
    refine Or.inr ⟨rfl, fun i hi => ?_⟩
    by_cases hil : i < l
    · have := hlow i hi hil
      omega
    · have := hhigh i hi (by omega)
      omega
  | succ fuel ih =>
    intro l u hlu hun hfuel hlow hhigh
    by_cases hlt : l < u
    · have hidx1 : l ≤ (l + u) / 2 := by omega
      have hidx2 : (l + u) / 2 < u := by omega
      have hidx : (l + u) / 2 < ys.length := by omega
      simp only [bsearch_loop]
      rw [if_pos hlt, hel _ hidx]
      by_cases hneg : cmp x (ys[(l + u) / 2]) < 0
      · rw [if_pos hneg]
        exact ih l ((l + u) / 2) hidx1 (by omega) (by omega) hlow
          (fun i hi hge => key_lt_of_sorted h hs x hidx hi hge hneg)
      · rw [if_neg hneg]
        by_cases hpos : cmp x (ys[(l + u) / 2]) > 0
        · rw [if_pos hpos]
          exact ih ((l + u) / 2 + 1) u (by omega) hun (by omega)
            (fun i hi hle => key_gt_of_sorted h hs x hidx hi (by omega) hpos) hhigh
        · rw [if_neg hpos]
          exact Or.inl ⟨(l + u) / 2, hidx, rfl, by omega⟩
    · have hlu2 : l = u := by omega
      refine Or.inr ⟨by simp only [bsearch_loop]; rw [if_neg hlt], fun i hi => ?_⟩
      by_cases hil : i < l
      · have := hlow i hi hil
        omega
      · have := hhigh i hi (by omega)
        omega

/-- The operation `vector_sort` on a vector holding `xs` leaves it holding the
insertion sort of `xs`. -/
theorem sort_holds (cmp : Comparator) {es : Nat} {v : vector} {xs : List (List Nat)}
    (hv : Holds es v xs) :
    ∃ v1, vector_sort (some v) (some cmp) = .ret () (some v1) ∧
      Holds es v1 (List.insertionSort (fun a b => cmp a b ≤ 0) xs) ∧
      v1.size = v.size ∧ v1.capacity = v.capacity := by
  have hlen := hv.length_eq
  obtain ⟨hds, hsz, d, hd, hlt, hle, hel⟩ := hv
  have hperm := List.perm_insertionSort (fun a b => cmp a b ≤ 0) xs
  have hlen2 : ∀ y ∈ List.insertionSort (fun a b => cmp a b ≤ 0) xs, y.length = es :=
    fun y hy => hlen y (hperm.mem_iff.mp hy)
  have hn : (List.insertionSort (fun a b => cmp a b ≤ 0) xs).length = xs.length :=
    hperm.length_eq
  refine ⟨⟨v.size, v.capacity, v.data_size,
    some ((List.insertionSort (fun a b => cmp a b ≤ 0) xs).flatten ++
      d.drop (xs.length * es))⟩, ?_, ?_, rfl, rfl⟩
  · simp only [vector_sort, hd, qsort, hsz, hds]
    rw [if_pos hle, records_eq hel]
  · refine ⟨hds, by rw [hn]; exact hsz, _, rfl, ?_, ?_, ?_⟩
    · rw [List.length_append, length_flatten_of_length _ hlen2, hn, List.length_drop]
      omega
    · rw [List.length_append, length_flatten_of_length _ hlen2, hn, List.length_drop]
      omega
    · exact slice_flatten _ _ hlen2

theorem scenario_holds :
    Holds 4 scenarioVector [[1, 0, 0, 0], [2, 0, 0, 0], [3, 0, 0, 0]] :=
  ⟨rfl, rfl, _, rfl, by decide, by decide, by decide⟩

theorem pair_holds : Holds 4 pairVector [[99, 0, 0, 0], [3, 0, 0, 0]] :=
  ⟨rfl, rfl, _, rfl, by decide, by decide, by decide⟩

theorem compareValues_total : TotalOrder compareValues :=
  ⟨fun a b => by unfold compareValues; omega, fun a b c => by unfold compareValues; omega⟩

theorem byte_holds : Holds 1 byteVector [[1], [2], [3]] :=
  ⟨rfl, rfl, _, rfl, by decide, by decide, by decide⟩

/-! ## Reserving and resizing where no byte count wraps -/

/-- What `memset` leaves: the block keeps its length, the bytes before the
range are kept and the bytes of the range are zero. -/
theorem memset_slices {dst d1 : List Nat} {off n : Nat} (h : memset dst off n = some d1) :
    d1.length = dst.length ∧ d1.take off = dst.take off ∧
      ∀ a b, off ≤ a → a + b ≤ off + n → (d1.drop a).take b = List.replicate b 0 := by
  obtain ⟨hb, rfl⟩ := memset_eq_some h
  have hA : (List.take off dst).length = off := by
    rw [List.length_take]
    omega
  refine ⟨?_, ?_, ?_⟩
  · simp only [List.length_append, List.length_take, List.length_replicate, List.length_drop]
    omega
  · rw [List.append_assoc, List.take_left' hA]
  · intro a b ha hab
    have h1 : (List.take off dst).length ≤ a := by omega
    have h2 : a + b ≤ (List.take off dst).length + (List.replicate n 0).length := by
      rw [hA, List.length_replicate]
      exact hab
    rw [slice_append_mid _ _ _ h1 h2, List.drop_replicate, List.take_replicate, hA]
    congr 1
    omega

/-- A block whose first records are `xs` and whose next records, up to `k`,
are zero stores `xs` followed by zero records. -/
theorem holds_append_zeros {es : Nat} {v : vector} {xs : List (List Nat)} {d : List Nat}
    {k : Nat} (hds : v.data_size = es) (hsz : v.size = k) (hd : v.data = some d)
    (hlt : d.length < ULL) (hk : xs.length ≤ k) (hle : k * es ≤ d.length)
    (hel : ∀ i (h : i < xs.length), (d.drop (i * es)).take es = xs[i])
    (hzero : ∀ i, xs.length ≤ i → i < k → (d.drop (i * es)).take es = List.replicate es 0) :
    Holds es v (xs ++ List.replicate (k - xs.length) (List.replicate es 0)) := by
  have hlen : (xs ++ List.replicate (k - xs.length) (List.replicate es 0)).length = k := by
    rw [List.length_append, List.length_replicate]
    omega
  refine ⟨hds, by rw [hlen]; exact hsz, d, hd, hlt, by rw [hlen]; exact hle, ?_⟩
  intro i hi
  by_cases hix : i < xs.length
  · rw [List.getElem_append_left hix]
    exact hel i hix
  · rw [List.getElem_append_right (by omega), List.getElem_replicate]
    exact hzero i (by omega) (by rw [hlen] at hi; exact hi)

/-- Where the byte count `target * data_size` does not wrap, `vector_reserve`
with a target above the capacity and a successful reallocation returns the
target, makes it the capacity, keeps size and elements and leaves every slot
from the size up to the target zero. -/
theorem reserve_without_wrap (v : vector) (es : Nat) (xs : List (List Nat))
    (target : Nat) (junk : List Nat) (hv : Holds es v xs) (hsc : v.size ≤ v.capacity)
    (hgt : v.capacity < target) (hmax : target ≤ LLONG_MAX) (hnowrap : target * es < ULL) :
    ∃ v1 d1, vector_reserve (some v) target (some junk) = .ret target (some v1) ∧
      v1.capacity = target ∧ v1.size = v.size ∧ v1.data_size = es ∧ Holds es v1 xs ∧
      v1.data = some d1 ∧ d1.length = target * es ∧
      ∀ i, xs.length ≤ i → i < target → (d1.drop (i * es)).take es = List.replicate es 0 := by
  obtain ⟨hds, hsz, d, hd, hlt, hle, hel⟩ := hv
  have hnt : xs.length * es ≤ target * es := Nat.mul_le_mul_right es (by omega)
  have hoff : umul v.size es = xs.length * es := by
    rw [hsz]
    exact umul_of_lt (by omega)
  have htar : umul target es = target * es := umul_of_lt hnowrap
  have hsub : usub (target * es) (xs.length * es) = target * es - xs.length * es :=
    usub_of_le hnt hnowrap
  cases hre : realloc v.data (target * es) (some junk) with
  | null => simp [realloc] at hre
  | nullZero => simp [realloc] at hre
  | block tmp =>
    obtain ⟨hlen, hpre⟩ := realloc_eq_some hre
    have hbound : xs.length * es + (target * es - xs.length * es) ≤ tmp.length := by omega
    cases hms : memset tmp (xs.length * es) (target * es - xs.length * es) with
    | none =>
      simp only [memset] at hms
      rw [if_pos hbound] at hms
      exact absurd hms (by simp)
    | some d1 =>
      obtain ⟨hl1, hkeep, hzero⟩ := memset_slices hms
      have hkeep2 : d1.take (xs.length * es) = d.take (xs.length * es) := by
        have := hpre (xs.length * es) hnt (by rw [hd]; exact hle)
        rw [hd] at this
        rw [hkeep, this]
        rfl
      refine ⟨⟨v.size, target, v.data_size, some d1⟩, d1, ?_, rfl, rfl, hds, ?_, rfl,
        by omega, ?_⟩
      · simp only [vector_reserve, hds, htar, hoff, hsub, hre, hms]
        rw [if_neg (by omega), if_neg (by omega)]
      · refine ⟨hds, hsz, d1, rfl, by omega, by omega, ?_⟩
        intro i hi
        rw [← hel i hi]
        exact slice_congr hkeep2 (mul_succ_le es hi)
      · intro i hin hit
        have := mul_succ_le es hit
        exact hzero (i * es) es (Nat.mul_le_mul_right es hin) (by omega)

/-- Where no byte count wraps and the buffer covers the capacity,
`vector_resize` to a size `k` above the size (within the capacity, or beyond it
with a successful reserve) returns `k` and leaves the vector holding the old
elements followed by zero elements, `k` in all. -/
theorem resize_without_wrap (v : vector) (es : Nat) (xs : List (List Nat)) (k : Nat)
    (r : Option (List Nat)) (hv : Holds es v xs) (hsc : v.size ≤ v.capacity)
    (hk : v.size < k)
    (hok : (k ≤ v.capacity ∧ ∀ d, v.data = some d → v.capacity * es ≤ d.length) ∨
      (v.capacity < k ∧ k ≤ LLONG_MAX ∧ k * es < ULL ∧ r ≠ none)) :
    ∃ v1, vector_resize (some v) k r = .ret k (some v1) ∧ v1.size = k ∧
      Holds es v1 (xs ++ List.replicate (k - xs.length) (List.replicate es 0)) := by
  rcases hok with ⟨hkc, hbuf⟩ | ⟨hgt, hmax, hnowrap, hr⟩
  · obtain ⟨hds, hsz, d, hd, hlt, hle, hel⟩ := hv
    have hcap := hbuf d hd
    have hkc2 : k * es ≤ v.capacity * es := Nat.mul_le_mul_right es hkc
    have hnk : xs.length * es ≤ k * es := Nat.mul_le_mul_right es (by omega)
    have hoff : umul v.size es = xs.length * es := by
      rw [hsz]
      exact umul_of_lt (by omega)
    have htar : umul k es = k * es := umul_of_lt (by omega)
    have hsub : usub (k * es) (xs.length * es) = k * es - xs.length * es :=
      usub_of_le hnk (by omega)
    have hbound : xs.length * es + (k * es - xs.length * es) ≤ d.length := by omega
    cases hms : memset d (xs.length * es) (k * es - xs.length * es) with
    | none =>
      simp only [memset] at hms
      rw [if_pos hbound] at hms
      exact absurd hms (by simp)
    | some d1 =>
      obtain ⟨hl1, hkeep, hzero⟩ := memset_slices hms
      have hcond : k ≥ v.size ∧ k ≤ v.capacity := ⟨by omega, hkc⟩
      refine ⟨⟨k, v.capacity, v.data_size, some d1⟩, ?_, rfl, ?_⟩
      · simp only [vector_resize, hd, hds, htar, hoff, hsub, hms]
        rw [if_pos hcond]
      · refine holds_append_zeros hds rfl rfl (by omega) (by omega) (by omega) ?_ ?_
        · intro i hi
          rw [← hel i hi]
          exact slice_congr hkeep (mul_succ_le es hi)
        · intro i hin hik
          have := mul_succ_le es hik
          exact hzero (i * es) es (Nat.mul_le_mul_right es hin) (by omega)
  · cases r with
    | none => exact absurd rfl hr
    | some junk =>
      have hsz := hv.2.1
      obtain ⟨v1, d1, hres, hcap1, hsize1, hds1, hv1, hd1, hlen1, hzero⟩ :=
        reserve_without_wrap v es xs k junk hv hsc hgt hmax hnowrap
      obtain ⟨-, -, d2, hd2, -, -, hel2⟩ := hv1
      have hdd : d2 = d1 := by
        rw [hd1] at hd2
        exact (Option.some.inj hd2).symm
      subst hdd
      have hcond : ¬ (k ≥ v.size ∧ k ≤ v.capacity) := by omega
      have hne : ¬ v.capacity = k := by omega
      refine ⟨⟨k, v1.capacity, v1.data_size, v1.data⟩, ?_, rfl, ?_⟩
      · simp only [vector_resize, hres, vector_capacity]
        rw [if_neg hcond, if_pos hgt, if_neg hne]
      · exact holds_append_zeros hds1 rfl hd1 (by omega) (by omega) (by omega) hel2 hzero

/-! ## The claims, continued -/

/-- C11: a target above the capacity and within `LLONG_MAX` whose byte count
`target * data_size` wraps is not refused. On the vector holding 1, 2, 3 the
call `vector_reserve` with `2 ^ 62 + 1` reallocates to 4 bytes and then clears
memory from offset 12 on, outside the block; on a new vector it returns the
target and installs it as capacity over a 4-byte buffer, in which slot 1 does
not exist. -/
theorem reserve_wrapped_byte_count :
    scenarioVector.capacity < 4611686018427387905 ∧ 4611686018427387905 ≤ LLONG_MAX ∧
      vector_reserve (some scenarioVector) 4611686018427387905 (some []) = .undefined ∧
      vector_reserve (some freshVector) 4611686018427387905 (some []) =
        .ret 4611686018427387905 (some reservedVector) ∧
      view reservedVector (umul 1 reservedVector.data_size) = none :=
  ⟨by decide, by decide, by decide, by decide, by decide⟩

/-- C12: on a new vector of four-byte elements `vector_resize` with
`2 ^ 62 + 1`, its reserve succeeding, returns that number and makes it the
size, yet the buffer has 4 bytes: element 1 of the new range lies outside it. -/
theorem resize_past_wrapped_buffer :
    freshVector.size ≤ freshVector.capacity ∧ freshVector.size < 4611686018427387905 ∧
      vector_resize (some freshVector) 4611686018427387905 (some []) =
        .ret 4611686018427387905 (some resizedVector) ∧
      (vector_at (some resizedVector) 1).bind (view resizedVector) = none :=
  ⟨by decide, by decide, by decide, by decide⟩

/-- For a new size above the capacity whose reserve fails without `realloc`
having been asked for zero bytes (`realloc` returns null to a request of at
least one byte, or the new size exceeds `LLONG_MAX`), `vector_resize` returns
the size and leaves the vector, buffer included, as it was. -/
theorem resize_failed_reserve_keeps_block (v : vector) (new_size : Nat)
    (r : Option (List Nat)) (hgt : v.capacity < new_size)
    (hfail : (r = none ∧ umul new_size v.data_size ≠ 0) ∨ LLONG_MAX < new_size) :
    vector_resize (some v) new_size r = .ret v.size (some v) := by
  have hres : vector_reserve (some v) new_size r = .ret v.capacity (some v) := by
    simp only [vector_reserve]
    by_cases h1 : new_size > LLONG_MAX
    · rw [if_pos h1]
    · rw [if_neg h1, if_neg (by omega)]
      rcases hfail with ⟨h, hnz⟩ | h
      · subst h
        simp [realloc, hnz]
      · exact absurd h h1
  simp only [vector_resize, hres, vector_capacity]
  rw [if_neg (by omega), if_pos hgt, if_pos trivial]

/-- C13: on the vector holding 1, 2, 3 the new size `2 ^ 62` is above the
capacity and within `LLONG_MAX`, and its byte count `2 ^ 62 * 4` wraps to 0, so
`vector_reserve` asks `realloc` for zero bytes. On a null answer `vector_resize`
returns the size 3, but the elements are not known to be what they were: an
allocator such as glibc has freed the buffer. -/
theorem resize_zero_byte_reserve_dangles :
    scenarioVector.capacity < 4611686018427387904 ∧ 4611686018427387904 ≤ LLONG_MAX ∧
      vector_reserve (some scenarioVector) 4611686018427387904 none =
        .dangling 10 scenarioVector ∧
      vector_resize (some scenarioVector) 4611686018427387904 none =
        .dangling 3 scenarioVector :=
  ⟨by decide, by decide, by decide, by decide⟩

/-- C14: on a vector holding `xs`, `vector_replace` of `x` at a position not
below the size returns null and changes nothing; at a position below the size
(the copy being allocated) it returns the bytes of the previous element there
and leaves the vector holding `xs` with `x` at that position, size and capacity
unchanged. -/
theorem replace_at_position (v : vector) (es : Nat) (xs : List (List Nat)) (x : List Nat)
    (pos : Nat) (hv : Holds es v xs) (hx : x.length = es) :
    (xs.length ≤ pos → ∀ c, vector_replace (some v) x pos c = .ret none (some v)) ∧
    ∀ (hpos : pos < xs.length), ∃ v1,
      vector_replace (some v) x pos true = .ret (some xs[pos]) (some v1) ∧
      Holds es v1 (xs.set pos x) ∧ v1.size = v.size ∧ v1.capacity = v.capacity := by
  constructor
  · intro hge c
    obtain ⟨hds, hsz, d, hd, hlt, hle, hel⟩ := hv
    have hat : vector_at (some v) pos = none := by
      simp only [vector_at, hd, hsz]
      rw [if_pos hge]
    simp only [vector_replace, hat]
  · intro hpos
    obtain ⟨hat, hview⟩ := hv.at_view pos hpos
    obtain ⟨hds, hsz, d, hd, hlt, hle, hel⟩ := hv
    have hie := mul_succ_le es hpos
    have hoff : umul pos es = pos * es := umul_of_lt (by omega)
    have hcpy : memcpy d (pos * es) x es =
        some (d.take (pos * es) ++ x ++ d.drop (pos * es + es)) := by
      simp only [memcpy]
      rw [if_pos ⟨by omega, by omega⟩, ← hx, List.take_length]
    refine ⟨⟨v.size, v.capacity, v.data_size,
      some (d.take (pos * es) ++ x ++ d.drop (pos * es + es))⟩, ?_, ?_, rfl, rfl⟩
    · simp only [vector_replace, hat, hview, hd, hds, hoff, hcpy]
      rfl
    · refine ⟨hds, by rw [List.length_set]; exact hsz, _, rfl, ?_, ?_, ?_⟩
      · simp only [List.length_append, List.length_take, List.length_drop]
        omega
      · simp only [List.length_append, List.length_take, List.length_drop, List.length_set]
        omega
      · intro i hi
        rw [List.length_set] at hi
        rw [List.getElem_set]
        have hie2 := mul_succ_le es hi
        by_cases hip : pos = i
        · subst hip
          rw [if_pos rfl]
          have := splice_mid d x (d.drop (pos * es + es)) (pos * es) (by omega)
          rw [hx] at this
          exact this
        · rw [if_neg hip, ← hel i hi]
          by_cases hlt2 : i < pos
          · exact slice_congr (splice_take d x (pos * es) es (by omega))
              (mul_succ_le es hlt2)
          · have hpi : pos < i := by omega
            have := mul_succ_le es hpi
            have hdrop := splice_drop d x (pos * es) (by omega)
            rw [hx] at hdrop
            exact slice_congr_drop hdrop (by omega)

/-- C14, at an instance: replacing element 0 of the vector holding 1, 2, 3 by
99 returns the bytes of 1 and leaves 99, 2, 3. -/
theorem replace_at_position_witness :
    ∃ v1, vector_replace (some scenarioVector) [99, 0, 0, 0] 0 true =
        .ret (some [1, 0, 0, 0]) (some v1) ∧
      Holds 4 v1 [[99, 0, 0, 0], [2, 0, 0, 0], [3, 0, 0, 0]] ∧
      v1.size = scenarioVector.size ∧ v1.capacity = scenarioVector.capacity :=
  (replace_at_position scenarioVector 4 [[1, 0, 0, 0], [2, 0, 0, 0], [3, 0, 0, 0]]
    [99, 0, 0, 0] 0 scenario_holds rfl).2 (by decide)

/-- C15: on a vector holding `xs` (positive element size, size within
`LLONG_MAX`, the range of the result type), `vector_index_of` with enough loop
iterations returns the smallest index whose element compares equal to `x`, and
`N_EXISTS` when no element does; the vector is unchanged, and a negative
`N_EXISTS` differs from every index. -/
theorem index_of_first_match (N_EXISTS : Int) (fuel : Nat) (v : vector) (es : Nat)
    (xs : List (List Nat)) (x : List Nat) (cmp : Comparator) (hN : N_EXISTS < 0)
    (hv : Holds es v xs) (hes : 0 < es) (hsize : v.size ≤ LLONG_MAX) (hfuel : v.size < fuel) :
    (∀ (i : Nat) (hi : i < xs.length), cmp x xs[i] = 0 →
      (∀ (j : Nat) (hj : j < i), cmp x (xs[j]) ≠ 0) →
      vector_index_of N_EXISTS fuel (some v) x (some cmp) = some (.ret (i : Int) (some v))) ∧
    ((∀ (i : Nat) (hi : i < xs.length), cmp x (xs[i]) ≠ 0) →
      vector_index_of N_EXISTS fuel (some v) x (some cmp) = some (.ret N_EXISTS (some v))) ∧
    ∀ i : Nat, (i : Int) ≠ N_EXISTS := by
  obtain ⟨hds, hsz, d, hd, hlt, hle, hel⟩ := hv
  refine ⟨?_, ?_, fun i => by omega⟩
  · intro i hi hmatch hfirst
    have := index_of_loop_found (N := N_EXISTS) hds hsz hlt hle hel hes i hi hmatch hfirst
      fuel 0 (Nat.zero_le _) (by omega)
    rw [Nat.zero_mul, toLongLong_of_le (by omega)] at this
    simp only [vector_index_of, hd]
    exact this
  · intro hnone
    have := index_of_loop_absent (N := N_EXISTS) hds hsz hlt hle hel hes hnone
      fuel 0 (Nat.zero_le _) (by omega)
    rw [Nat.zero_mul] at this
    simp only [vector_index_of, hd]
    exact this

/-- C15, at an instance: the index of 3 in the vector holding 99, 3 is 1. -/
theorem index_of_first_match_witness :
    vector_index_of (-1) 3 (some pairVector) [3, 0, 0, 0] (some compareValues) =
      some (.ret ((1 : Nat) : Int) (some pairVector)) :=
  (index_of_first_match (-1) 3 pairVector 4 [[99, 0, 0, 0], [3, 0, 0, 0]] [3, 0, 0, 0]
    compareValues (by decide) pair_holds (by decide) (by decide) (by decide)).1 1
    (by decide) (by decide) (by decide)

/-- C16: on a vector holding `xs` and for a comparator that is a total order,
`vector_find` leaves the vector holding a permutation of `xs` sorted ascending,
size and capacity unchanged; when some element compares equal to the key it
returns a pointer showing such an element, and null when none does; with a null
comparator it returns null and changes nothing. -/
theorem find_sorts_then_searches (v : vector) (es : Nat) (xs : List (List Nat))
    (x : List Nat) (cmp : Comparator) (hv : Holds es v xs) (hcmp : TotalOrder cmp) :
    (∃ res v1 ys, vector_find (some v) x (some cmp) = .ret res (some v1) ∧
      Holds es v1 ys ∧ ys.Perm xs ∧ ys.Sorted (fun a b => cmp a b ≤ 0) ∧
      v1.size = v.size ∧ v1.capacity = v.capacity ∧
      ((∃ e ∈ xs, cmp x e = 0) →
        ∃ off e, res = some off ∧ view v1 off = some e ∧ e ∈ ys ∧ cmp x e = 0) ∧
      ((∀ e ∈ xs, cmp x e ≠ 0) → res = none)) ∧
    vector_find (some v) x none = .ret none (some v) := by
  have hdata : ∃ d, v.data = some d := by
    obtain ⟨-, -, d, hd, -⟩ := hv
    exact ⟨d, hd⟩
  obtain ⟨d0, hd0⟩ := hdata
  constructor
  · obtain ⟨v1, hsort, hv1, hsize, hcap⟩ := sort_holds cmp hv
    have hperm := List.perm_insertionSort (fun a b => cmp a b ≤ 0) xs
    have hsorted : (List.insertionSort (fun a b => cmp a b ≤ 0) xs).Sorted
        (fun a b => cmp a b ≤ 0) := by
      haveI : IsTotal (List Nat) (fun a b => cmp a b ≤ 0) :=
        ⟨fun a b => by
          by_cases hab : cmp a b ≤ 0
          · exact Or.inl hab
          · exact Or.inr (hcmp.swap_le (by omega))⟩
      haveI : IsTrans (List Nat) (fun a b => cmp a b ≤ 0) := ⟨hcmp.2⟩
      exact List.sorted_insertionSort _ xs
    generalize List.insertionSort (fun a b => cmp a b ≤ 0) xs = ys at hv1 hperm hsorted
    have hat := hv1.at_view
    obtain ⟨hds1, hsz1, d1, hd1, hlt1, hle1, hel1⟩ := hv1
    have hfind : vector_find (some v) x (some cmp) =
        .ret (bsearch x d1 ys.length es cmp) (some v1) := by
      simp only [vector_find, hd0, hsort, hd1, hsz1, hds1]
    have hspec := bsearch_loop_spec hcmp hsorted hel1 x ys.length 0 ys.length
      (Nat.zero_le _) (le_refl _) (by omega) (fun i _ hi => absurd hi (Nat.not_lt_zero _))
      (fun i hi hge => absurd hi (by omega))
    refine ⟨_, v1, ys, hfind, ⟨hds1, hsz1, d1, hd1, hlt1, hle1, hel1⟩, hperm, hsorted,
      hsize, hcap, ?_, ?_⟩
    · rintro ⟨e, he, hxe⟩
      rcases hspec with ⟨i, hi, hres, hzero⟩ | ⟨-, hnone⟩
      · exact ⟨i * es, ys[i], hres, (hat i hi).2, List.getElem_mem _, hzero⟩
      · obtain ⟨i, hi, rfl⟩ := List.getElem_of_mem (hperm.mem_iff.mpr he)
        exact absurd hxe (hnone i hi)
    · intro hall
      rcases hspec with ⟨i, hi, -, hzero⟩ | ⟨hres, -⟩
      · exact absurd hzero (hall _ (hperm.mem_iff.mp (List.getElem_mem _)))
      · exact hres
  · simp only [vector_find, hd0]

/-- C16, at an instance: `vector_find` of 99 in the vector holding 99, 3 leaves
3, 99 and returns a pointer to the bytes of 99. -/
theorem find_sorts_then_searches_witness :
    ((∃ res v1 ys,
        vector_find (some pairVector) [99, 0, 0, 0] (some compareValues) =
          .ret res (some v1) ∧
        Holds 4 v1 ys ∧ ys.Perm [[99, 0, 0, 0], [3, 0, 0, 0]] ∧
        ys.Sorted (fun a b => compareValues a b ≤ 0) ∧
        v1.size = pairVector.size ∧ v1.capacity = pairVector.capacity ∧
        ((∃ e ∈ [[99, 0, 0, 0], [3, 0, 0, 0]], compareValues [99, 0, 0, 0] e = 0) →
          ∃ off e, res = some off ∧ view v1 off = some e ∧ e ∈ ys ∧
            compareValues [99, 0, 0, 0] e = 0) ∧
        ((∀ e ∈ [[99, 0, 0, 0], [3, 0, 0, 0]], compareValues [99, 0, 0, 0] e ≠ 0) →
          res = none)) ∧
      vector_find (some pairVector) [99, 0, 0, 0] none = .ret none (some pairVector)) ∧
    vector_find (some pairVector) [99, 0, 0, 0] (some compareValues) =
      .ret (some 4) (some sortedPairVector) ∧
    view sortedPairVector 4 = some [99, 0, 0, 0] :=
  ⟨find_sorts_then_searches pairVector 4 [[99, 0, 0, 0], [3, 0, 0, 0]] [99, 0, 0, 0]
    compareValues pair_holds compareValues_total, by decide, by decide⟩

/-- On a vector holding `xs`, `vector_shrink` with a successful reallocation
returns the size, makes the capacity equal to the size and leaves the vector
holding `xs`; with a null answer to a request of at least one byte it returns
the capacity and leaves the vector as it was; with a null answer to a request
for zero bytes it returns the capacity and the buffer pointer may dangle. -/
theorem shrink_to_size (v : vector) (es : Nat) (xs : List (List Nat)) (hv : Holds es v xs) :
    (∀ junk : List Nat, ∃ v1, vector_shrink (some v) (some junk) = .ret v.size (some v1) ∧
      v1.capacity = v.size ∧ v1.size = v.size ∧ Holds es v1 xs) ∧
    (umul v.size v.data_size ≠ 0 → vector_shrink (some v) none = .ret v.capacity (some v)) ∧
    (umul v.size v.data_size = 0 → vector_shrink (some v) none = .dangling v.capacity v) := by
  obtain ⟨hds, hsz, d, hd, hlt, hle, hel⟩ := hv
  have hoff : umul v.size v.data_size = xs.length * es := by
    rw [hsz, hds]
    exact umul_of_lt (by omega)
  refine ⟨?_, ?_, ?_⟩
  · intro junk
    cases hre : realloc v.data (umul v.size v.data_size) (some junk) with
    | null => simp [realloc] at hre
    | nullZero => simp [realloc] at hre
    | block tmp =>
      obtain ⟨hlen, hpre⟩ := realloc_eq_some hre
      refine ⟨⟨v.size, v.size, v.data_size, some tmp⟩, ?_, rfl, rfl, ?_⟩
      · simp only [vector_shrink, hd]
        rw [← hd, hre]
      · rw [hoff] at hlen hpre
        refine ⟨hds, hsz, tmp, rfl, by omega, by omega, ?_⟩
        intro i hi
        have h1 := hpre (xs.length * es) (le_refl _) (by rw [hd]; exact hle)
        rw [hd] at h1
        rw [← hel i hi]
        exact slice_congr h1 (mul_succ_le es hi)
  · intro hnz
    simp [vector_shrink, hd, realloc, hnz]
  · intro hz
    simp [vector_shrink, hd, realloc, hz]

/-- C17: on the vector `vector_init` returns, whose size is 0, `vector_shrink`
asks `realloc` for zero bytes. On a null answer it returns the capacity 10 and
keeps the buffer pointer, but the vector is not known to be unchanged: an
allocator such as glibc has freed the buffer, and the pointer dangles. -/
theorem shrink_empty_dangles :
    vector_init specInitCapacity 4 true true = some freshVector ∧
      freshVector.size ≤ freshVector.capacity ∧
      vector_shrink (some freshVector) none = .dangling 10 freshVector :=
  ⟨by decide, by decide, by decide⟩

/-- C18: on a full vector whose capacity passes the first bound and whose new
capacity is at most `LLONG_MAX / data_size`, so that the new byte count is
within `LLONG_MAX`, growth still fails as soon as the new byte count exceeds
`LLONG_MAX / data_size`: `vector_resize_internal` and `vector_push` return
`false`, whatever `realloc` would answer. -/
theorem growth_check_rejects_representable (GROWTH_FACTOR : Nat) (v : vector) (x : List Nat)
    (r : Option (List Nat)) (hfull : v.size = v.capacity) (hds : 0 < v.data_size)
    (hcap : v.capacity ≤ LLONG_MAX / 2 ^ GROWTH_FACTOR)
    (hnew : ushl v.capacity GROWTH_FACTOR ≤ LLONG_MAX / v.data_size)
    (hprod : LLONG_MAX / v.data_size < ushl v.capacity GROWTH_FACTOR * v.data_size) :
    ushl v.capacity GROWTH_FACTOR * v.data_size ≤ LLONG_MAX ∧
      vector_resize_internal GROWTH_FACTOR v r = .ret false (some v) ∧
      vector_push GROWTH_FACTOR (some v) x r = .ret false (some v) := by
  have hle : ushl v.capacity GROWTH_FACTOR * v.data_size ≤ LLONG_MAX :=
    le_trans (Nat.mul_le_mul_right _ hnew) (Nat.div_mul_le_self _ _)
  have hL : LLONG_MAX < ULL := by decide
  have hmul : umul (ushl v.capacity GROWTH_FACTOR) v.data_size =
      ushl v.capacity GROWTH_FACTOR * v.data_size := umul_of_lt (by omega)
  have hgrow : vector_resize_internal GROWTH_FACTOR v r = .ret false (some v) := by
    simp only [vector_resize_internal]
    rw [if_neg (by omega), if_neg (by omega), hmul, if_pos hprod]
  refine ⟨hle, hgrow, ?_⟩
  simp only [vector_push]
  cases hdata : v.data with
  | none => rfl
  | some d0 => simp only [hfull, if_true, hgrow]

/-- C18, at an instance: ten elements of `2 ^ 30` bytes; doubling to twenty
needs `20 * 2 ^ 30` bytes, far below `LLONG_MAX`, and is refused. -/
theorem growth_check_rejects_representable_witness :
    ushl hugeElements.capacity specGrowthFactor * hugeElements.data_size ≤ LLONG_MAX ∧
      vector_resize_internal specGrowthFactor hugeElements (some []) =
        .ret false (some hugeElements) ∧
      vector_push specGrowthFactor (some hugeElements) [] (some []) =
        .ret false (some hugeElements) :=
  growth_check_rejects_representable specGrowthFactor hugeElements [] (some []) rfl
    (by decide) (by decide) (by decide) (by decide)

/-- C19: `vector_shrink` on a new vector, `realloc` handing out a block of
zero bytes, leaves size and capacity 0. On that vector growth succeeds for
every growth factor and leaves the capacity at 0, not above the size, and
`vector_push` then copies the element to offset 0 of the empty block: a write
outside the buffer. -/
theorem push_after_empty_shrink_overruns (GROWTH_FACTOR : Nat) (x junk : List Nat) :
    vector_shrink (some freshVector) (some []) = .ret 0 (some emptyShrunk) ∧
      emptyShrunk.size = emptyShrunk.capacity ∧
      vector_resize_internal GROWTH_FACTOR emptyShrunk (some junk) =
        .ret true (some emptyShrunk) ∧
      ¬ emptyShrunk.size < emptyShrunk.capacity ∧
      vector_push GROWTH_FACTOR (some emptyShrunk) x (some junk) = .undefined := by
  have hgrow : vector_resize_internal GROWTH_FACTOR emptyShrunk (some junk) =
      .ret true (some emptyShrunk) := by
    have h0 : ushl emptyShrunk.capacity GROWTH_FACTOR = 0 := by
      simp [ushl, emptyShrunk]
    simp only [vector_resize_internal, h0]
    rfl
  refine ⟨by decide, rfl, hgrow, by decide, ?_⟩
  simp only [vector_push]
  rw [show emptyShrunk.data = some [] from rfl]
  simp only [show emptyShrunk.size = emptyShrunk.capacity from rfl, if_true, hgrow]
  rfl

/-- C20: on a vector holding `xs` with a positive element size, for a position
below the size that is the last one, or any position when the element size is
1, `vector_remove_at` (the copy being allocated) returns the bytes of the
element there and leaves the vector holding `xs` with that element erased, the
size one less and the capacity unchanged. -/
theorem remove_at_agrees_with_erase (v : vector) (es : Nat) (xs : List (List Nat))
    (pos : Nat) (hv : Holds es v xs) (hes : 0 < es) (hpos : pos < xs.length)
    (hcase : es = 1 ∨ pos = xs.length - 1) :
    ∃ v1, vector_remove_at (some v) pos true = .ret (some xs[pos]) (some v1) ∧
      Holds es v1 (xs.eraseIdx pos) ∧ v1.size = v.size - 1 ∧ v1.capacity = v.capacity := by
  obtain ⟨hat, hview⟩ := hv.at_view pos hpos
  obtain ⟨hds, hsz, d, hd, hlt, hle, hel⟩ := hv
  have hie := mul_succ_le es hpos
  have hoff : umul pos es = pos * es := umul_of_lt (by omega)
  have hsd : umul v.size es = xs.length * es := by
    rw [hsz]
    exact umul_of_lt (by omega)
  have hlen : usub (usub (xs.length * es) (pos * es)) es = xs.length * es - pos * es - es := by
    have h1 : usub (xs.length * es) (pos * es) = xs.length * es - pos * es :=
      usub_of_le (by omega) (by omega)
    have h2 : usub (xs.length * es - pos * es) es = xs.length * es - pos * es - es :=
      usub_of_le (by omega) (by omega)
    rw [h1, h2]
  have hsize1 : usub xs.length 1 = xs.length - 1 := by
    have : xs.length ≤ xs.length * es := Nat.le_mul_of_pos_right _ hes
    exact usub_of_le (by omega) (by omega)
  have hn1 : xs.length - 1 + 1 = xs.length := by omega
  have hlen_erase : (xs.eraseIdx pos).length = xs.length - 1 := by
    rw [List.length_eraseIdx, if_pos hpos]
  have hmv : ∃ d1, memmove d (pos * es) (pos * es + 1)
      (xs.length * es - pos * es - es) = some d1 ∧ d1.length = d.length ∧
      ∀ i (hi : i < (xs.eraseIdx pos).length),
        (d1.drop (i * es)).take es = (xs.eraseIdx pos)[i] := by
    rcases hcase with h1 | hlast
    · subst h1
      simp only [Nat.mul_one] at *
      refine ⟨d.take pos ++ (d.drop (pos + 1)).take (xs.length - pos - 1) ++
        d.drop (pos + (xs.length - pos - 1)), ?_, ?_, ?_⟩
      · have hc : pos + (xs.length - pos - 1) ≤ d.length ∧
            pos + 1 + (xs.length - pos - 1) ≤ d.length := ⟨by omega, by omega⟩
        simp only [memmove]
        rw [if_pos hc]
      · simp only [List.length_append, List.length_take, List.length_drop]
        omega
      · intro i hi
        have hi1 : i < xs.length - 1 := by rw [← hlen_erase]; exact hi
        have hA : (List.take pos d).length = pos := by
          rw [List.length_take]; omega
        rw [List.getElem_eraseIdx]
        by_cases hip : i < pos
        · have hix : i < xs.length := by omega
          rw [dif_pos hip, ← hel i hix]
          refine slice_congr (c := pos) ?_ (by omega)
          rw [List.append_assoc, List.take_left' hA]
        · have hix : i + 1 < xs.length := by omega
          rw [dif_neg hip, ← hel (i + 1) hix]
          have hB : (List.take (xs.length - pos - 1) (List.drop (pos + 1) d)).length =
              xs.length - pos - 1 := by
            rw [List.length_take, List.length_drop]
            omega
          have h1 : (List.take pos d).length ≤ i := by omega
          have h2 : i + 1 ≤ (List.take pos d).length +
              (List.take (xs.length - pos - 1) (List.drop (pos + 1) d)).length := by omega
          have h3 : i - pos + 1 ≤ xs.length - pos - 1 := by omega
          have hk1 : i - pos + (pos + 1) = i + 1 := by omega
          have hk2 : pos + 1 + (i - pos) = i + 1 := by omega
          rw [slice_append_mid _ _ _ h1 h2, hA, slice_take _ h3, List.drop_drop]
          first
            | rw [hk1]
            | rw [hk2]
    · have hp : pos + 1 = xs.length := by omega
      have hpe : (pos + 1) * es = xs.length * es := by rw [hp]
      rw [Nat.add_mul, Nat.one_mul] at hpe
      have hz : xs.length * es - pos * es - es = 0 := by omega
      have hc : pos * es + 0 ≤ d.length ∧ pos * es + 1 + 0 ≤ d.length := ⟨by omega, by omega⟩
      refine ⟨d, ?_, rfl, ?_⟩
      · simp only [memmove]
        rw [hz, if_pos hc]
        simp
      · intro i hi
        have hi1 : i < xs.length - 1 := by rw [← hlen_erase]; exact hi
        have hip : i < pos := by omega
        have hix : i < xs.length := by omega
        rw [List.getElem_eraseIdx, dif_pos hip, hel i hix]
  obtain ⟨d1, hmove, hd1len, hd1⟩ := hmv
  refine ⟨⟨usub v.size 1, v.capacity, v.data_size, some d1⟩, ?_, ?_, ?_, rfl⟩
  · simp only [vector_remove_at, hat, hview, hd, hds, hsd, hoff, hlen, hmove]
    rfl
  · refine ⟨hds, ?_, d1, rfl, by omega, ?_, hd1⟩
    · show usub v.size 1 = (xs.eraseIdx pos).length
      rw [hsz, hsize1, hlen_erase]
    · rw [hlen_erase, hd1len]
      have : (xs.length - 1) * es ≤ xs.length * es := Nat.mul_le_mul_right es (by omega)
      omega
  · show usub v.size 1 = v.size - 1
    rw [hsz, hsize1]

/-- C20, at an instance: removing element 0 of the one-byte elements 1, 2, 3
returns 1 and leaves 2, 3. -/
theorem remove_at_agrees_with_erase_witness :
    ∃ v1, vector_remove_at (some byteVector) 0 true = .ret (some [1]) (some v1) ∧
      Holds 1 v1 [[2], [3]] ∧ v1.size = byteVector.size - 1 ∧
      v1.capacity = byteVector.capacity :=
  remove_at_agrees_with_erase byteVector 1 [[1], [2], [3]] 0 byte_holds (by decide)
    (by decide) (Or.inl rfl)

end GenericVector
